import Mathlib

/-!
Verification of the combinatorial core of `tensornetwork/block_sparse/block_tensor.py`.

The block-tensor code consumes an external charge algebra (`charge.py`, not part of
the verified sources).  Per the specification (§1, §6) the algorithms are generic over
any charge algebra satisfying the stated contract; we instantiate it with single
`U(1)` charges, i.e. plain integers, where fusion is addition, the dual is negation,
the identity charge is `0`, and `unique`/`intersect` deduplicate in canonical
ascending order.  Charge arrays are modelled as `List Int`, flat (row-major) as in
the source.  Machine-integer widths (`uint32`/`int16` etc.) are modelled as unbounded
integers: the claims under study concern the combinatorial structure, and the widths
only matter for tensors far beyond addressable memory.
-/

namespace BlockTensor

/-- Modelled from the spec: the charge algebra's `dual(charge, flow)` (§6) for `U(1)`
charges — negation when the flow is `true`, identity when `false` (the source
library's convention; §6 allows either as long as it is consistent). -/
def dual (flow : Bool) (q : Int) : Int := if flow then -q else q

/-- Apply `dual` to a whole flat charge array (the source's `charges * flow`). -/
def dualList (flow : Bool) (cs : List Int) : List Int := cs.map (dual flow)

/-- Modelled from the spec: fusion of two flat charge arrays (§6 `fuse`): the outer
sum enumerated in row-major order, as `fuse_ndarrays`/`BaseCharge.__add__` produce. -/
def fuseTwo (a b : List Int) : List Int := a.flatMap (fun x => b.map (fun y => x + y))

/-- The left-to-right fusion fold of `fuse_charges(charges, flows)`: starting from an
accumulator, fuse in each remaining leg's dualled charges. -/
def legsFuse : List Int → List (List Int) → List Bool → List Int
  | acc, [], _ => acc
  | acc, _, [] => acc
  | acc, c :: cs, f :: fs => legsFuse (fuseTwo acc (dualList f c)) cs fs

/-- `fuse_charges(charges, flows)` as a flat charge array: the row-major enumeration
of all fused charge combinations of the legs. -/
def fuseChargesFlat : List (List Int) → List Bool → List Int
  | [], _ => []
  | _, [] => []
  | c :: cs, f :: fs => legsFuse (dualList f c) cs fs

/-- Insert a value into an ascending duplicate-free list, keeping it ascending and
duplicate-free. -/
def insertUnique (x : Int) : List Int → List Int
  | [] => [x]
  | y :: ys => if x < y then x :: y :: ys else if x = y then y :: ys else y :: insertUnique x ys

/-- Modelled from the spec: the charge algebra's `unique` values (§6) — deduplicate
in canonical (ascending) order, as `np.unique` does in the source library. -/
def uniqueSorted (l : List Int) : List Int := l.foldr insertUnique []

/-- `unique(..., return_counts=True)`: each unique value of `l` (ascending) paired
with its multiplicity in `l`. -/
def uniqueCounts (l : List Int) : List (Int × Nat) := (uniqueSorted l).map (fun v => (v, l.count v))

/-- `|np.prod(dims[:p]) - np.prod(dims[p:])|`, the imbalance of split point `p`
measured by `_find_best_partition`. -/
def diffAt (dims : List Nat) (p : Nat) : Nat :=
  (((dims.take p).prod : Int) - ((dims.drop p).prod : Int)).natAbs

/-- `np.argmax`: index of the first occurrence of the maximum (0 on an empty list). -/
def argmaxList : List Nat → Nat
  | [] => 0
  | [_] => 0
  | x :: y :: ys =>
    if x < (y :: ys).getD (argmaxList (y :: ys)) 0 then argmaxList (y :: ys) + 1 else 0

/-- `_find_best_partition(dims)`: the split point `p ∈ [1, len dims - 1]` with the
most level products, ties broken towards the largest right product (first such index,
per `np.argmax`).  `none` models the `ValueError` raised on `len(dims) == 1` and the
`ValueError` that `np.min` raises on the empty `diffs` list when `dims` is empty. -/
def findBestPartition (dims : List Nat) : Option Nat :=
  if dims.length = 1 then none
  else
    let diffs := (List.range' 1 (dims.length - 1)).map (fun p => diffAt dims p)
    match diffs.min? with
    | none => none
    | some m =>
      let minInds := (List.range diffs.length).filter (fun i => diffs.getD i 0 = m)
      if 1 < minInds.length then
        let rightDims := minInds.map (fun i => (dims.drop (i + 1)).prod)
        some (minInds.getD (argmaxList rightDims) 0 + 1)
      else
        some (minInds.getD 0 0 + 1)

/-- One step of the degeneracy fold of `compute_fused_charge_degeneracies`: fuse the
accumulated unique charges/degeneracies with the next leg's unique charges (dualled
by its flow) and its per-value counts, then re-group by fused value — the explicit
convolution of the source's loop body. -/
def fuseStep (f : Bool) (acc : List (Int × Nat)) (cs : List Int) : List (Int × Nat) :=
  let leg := uniqueCounts cs
  let pairs := acc.flatMap (fun ud => leg.map (fun we => (ud.1 + dual f we.1, ud.2 * we.2)))
  (uniqueSorted (pairs.map Prod.fst)).map
    (fun v => (v, ((pairs.filter (fun q => q.1 = v)).map Prod.snd).sum))

/-- The leg loop of `compute_fused_charge_degeneracies`. -/
def legsFold : List (Int × Nat) → List (List Int) → List Bool → List (Int × Nat)
  | acc, [], _ => acc
  | acc, _, [] => acc
  | acc, c :: cs, f :: fs => legsFold (fuseStep f acc c) cs fs

/-- `compute_fused_charge_degeneracies(charges, flows)`: the unique fused charges of
all legs together with their degeneracies.  The single-leg case short-circuits to
`unique(return_counts=True)` of the dualled leg, exactly as in the source (here the
fold base case). -/
def computeFusedChargeDegeneracies : List (List Int) → List Bool → List (Int × Nat)
  | [], _ => []
  | _, [] => []
  | c :: cs, f :: fs => legsFold (uniqueCounts (dualList f c)) cs fs

/-- `compute_num_nonzero(charges, flows)`: `0` if some leg is empty, otherwise the
degeneracy of the identity charge `0` in the full fusion (`0` if unreachable). -/
def computeNumNonzero (charges : List (List Int)) (flows : List Bool) : Nat :=
  if charges.any (fun c => c.length = 0) then 0
  else
    match (computeFusedChargeDegeneracies charges flows).filter (fun p => p.1 = 0) with
    | [] => 0
    | p :: _ => p.2

/-- The un-compacted lookup of `compute_sparse_lookup`: `tmp[inverse]` in the source,
an entry per flat position, `-1` where the fused charge is not a target charge and
the kept unique-charge index elsewhere. -/
def sparseLookupFull (charges : List (List Int)) (flows : List Bool)
    (targetCharges : List Int) : List Int :=
  let fused := fuseChargesFlat charges flows
  let unique := uniqueSorted fused
  let labelToUnique := (unique.filter (fun q => q ∈ targetCharges)).map
    (fun q => unique.indexOf q)
  let tmp := (List.range unique.length).map
    (fun u => if u ∈ labelToUnique then (u : Int) else -1)
  (fused.map (fun q => unique.indexOf q)).map (fun i => tmp.getD i (-1))

/-- `compute_sparse_lookup(charges, flows, target_charges)`: the compacted lookup
(`lookup[lookup >= 0]`), the unique fused charges, and the kept unique labels. -/
def computeSparseLookup (charges : List (List Int)) (flows : List Bool)
    (targetCharges : List Int) : List Int × List Int × List Nat :=
  let fused := fuseChargesFlat charges flows
  let unique := uniqueSorted fused
  let labelToUnique := (unique.filter (fun q => q ∈ targetCharges)).map
    (fun q => unique.indexOf q)
  ((sparseLookupFull charges flows targetCharges).filter (fun x => 0 ≤ x),
   unique, labelToUnique)

/-- The flat positions whose entry survives the compaction of
`compute_sparse_lookup` (those whose fused charge is a target charge), in their
original row-major order. -/
def sparseLookupKeptPositions (charges : List (List Int)) (flows : List Bool)
    (targetCharges : List Int) : List Nat :=
  let lk := sparseLookupFull charges flows targetCharges
  (List.range lk.length).filter (fun i => 0 ≤ lk.getD i (-1))

/-- A charge object as handed back by the reducer and the block locator: its unique
charge values and, per flat position, the index of that position's charge among them
(the source's `unique_charges` / `charge_labels` pair; the object's length is the
length of `charge_labels`). -/
structure ChargeObj where
  uniqueCharges : List Int
  chargeLabels : List Nat
deriving DecidableEq, Repr

/-- Modelled from the spec: the charge algebra's own reduce-by-target operation used
by the single-leg case of `reduce_charges` (§4.5) — keep the positions of the
(already dualled) flat charge array whose value lies in the target set, returning the
surviving unique values and per-kept-position labels. -/
def singleLegReduce (dualled : List Int) (targetCharges : List Int) : ChargeObj :=
  let kept := (uniqueSorted dualled).filter (fun q => q ∈ targetCharges)
  ⟨kept, (dualled.filter (fun q => q ∈ targetCharges)).map (fun q => kept.indexOf q)⟩

/-- Modelled from the spec: the location-returning form of the charge algebra's
reduce-by-target (§4.5), with the trivial stride `1`: the kept flat positions in
ascending order. -/
def singleLegReduceLocs (dualled : List Int) (targetCharges : List Int) :
    ChargeObj × List Nat :=
  (singleLegReduce dualled targetCharges,
   (List.range dualled.length).filter (fun i => dualled.getD i 0 ∈ targetCharges))

/-- The `-1`-sentinel lookup of `reduce_charges`: `map_to_kept[comb_labels[...]]` at
the combined charge of left-unique index `n` and right-unique index `j` (the entry
`new_comb_labels[n, j]`). -/
def newCombLabel (leftU rightU uniqueComb reducedQnums targetCharges : List Int)
    (n j : Nat) : Int :=
  ((List.range uniqueComb.length).map (fun u =>
    if uniqueComb.getD u 0 ∈ targetCharges then
      (reducedQnums.indexOf (uniqueComb.getD u 0) : Int)
    else -1)).getD (uniqueComb.indexOf (leftU.getD n 0 + rightU.getD j 0)) (-1)

/-- The multi-leg body of `reduce_charges` at a given partition: fuse each side,
deduplicate the combined charges, intersect with the targets, and gather the
surviving labels row by row.  `none` models the `ValueError` that `np.concatenate`
raises on an empty array list when the left partition group is empty. -/
def reduceMulti (charges : List (List Int)) (flows : List Bool)
    (targetCharges : List Int) (partition : Nat) : Option ChargeObj :=
  let leftFlat := fuseChargesFlat (charges.take partition) (flows.take partition)
  let rightFlat := fuseChargesFlat (charges.drop partition) (flows.drop partition)
  let leftU := uniqueSorted leftFlat
  let rightU := uniqueSorted rightFlat
  let uniqueComb := uniqueSorted (fuseTwo leftU rightU)
  let reducedQnums := uniqueComb.filter (fun q => q ∈ targetCharges)
  let reducedRows : Nat → List Int := fun n =>
    ((rightFlat.map (fun q => rightU.indexOf q)).map
      (fun j => newCombLabel leftU rightU uniqueComb reducedQnums targetCharges n j)).filter
      (fun x => 0 ≤ x)
  if leftFlat.length = 0 then none
  else
    some ⟨reducedQnums,
      ((leftFlat.map (fun q => leftU.indexOf q)).flatMap
        (fun n => reducedRows n)).map Int.toNat⟩

/-- `reduce_charges(charges, flows, target_charges)` (without locations): the
single-leg case delegates to the charge algebra's reduce, the multi-leg case splits
at the best partition.  `none` models the `ValueError` of `_find_best_partition` on
an empty `charges` list (via `np.min` of an empty array) and the `np.concatenate`
failure inside `reduceMulti`. -/
def reduceCharges (charges : List (List Int)) (flows : List Bool)
    (targetCharges : List Int) : Option ChargeObj :=
  match charges, flows with
  | [c], f :: _ => some (singleLegReduce (dualList f c) targetCharges)
  | _, _ =>
    match findBestPartition (charges.map List.length) with
    | none => none
    | some partition => reduceMulti charges flows targetCharges partition

/-- The multi-leg body of `reduce_charges(..., return_locations=True)` with the
default trivial strides: additionally returns, per kept position, its row-major
linear offset `leftFlatIndex * rightDim + rightFlatIndex`. -/
def reduceMultiLocs (charges : List (List Int)) (flows : List Bool)
    (targetCharges : List Int) (partition : Nat) : Option (ChargeObj × List Nat) :=
  let leftFlat := fuseChargesFlat (charges.take partition) (flows.take partition)
  let rightFlat := fuseChargesFlat (charges.drop partition) (flows.drop partition)
  let leftU := uniqueSorted leftFlat
  let rightU := uniqueSorted rightFlat
  let uniqueComb := uniqueSorted (fuseTwo leftU rightU)
  let reducedQnums := uniqueComb.filter (fun q => q ∈ targetCharges)
  let reducedRows : Nat → List Int := fun n =>
    ((rightFlat.map (fun q => rightU.indexOf q)).map
      (fun j => newCombLabel leftU rightU uniqueComb reducedQnums targetCharges n j)).filter
      (fun x => 0 ≤ x)
  let rowLocs : Nat → List Nat := fun n =>
    (List.range rightFlat.length).filter (fun p =>
      0 ≤ newCombLabel leftU rightU uniqueComb reducedQnums targetCharges n
        ((rightFlat.map (fun q => rightU.indexOf q)).getD p 0))
  if leftFlat.length = 0 then none
  else
    some (⟨reducedQnums,
      ((leftFlat.map (fun q => leftU.indexOf q)).flatMap
        (fun n => reducedRows n)).map Int.toNat⟩,
      (List.range leftFlat.length).flatMap (fun i =>
        (rowLocs ((leftFlat.map (fun q => leftU.indexOf q)).getD i 0)).map
          (fun p => i * rightFlat.length + p)))

/-- `reduce_charges(charges, flows, target_charges, return_locations=True)` with the
default trivial strides (`strides=None`). -/
def reduceChargesWithLocations (charges : List (List Int)) (flows : List Bool)
    (targetCharges : List Int) : Option (ChargeObj × List Nat) :=
  match charges, flows with
  | [c], f :: _ => some (singleLegReduceLocs (dualList f c) targetCharges)
  | _, _ =>
    match findBestPartition (charges.map List.length) with
    | none => none
    | some partition => reduceMultiLocs charges flows targetCharges partition

/-- The exclusive prefix sums `np.insert(np.cumsum(l[0:-1]), 0, 0)` used for
`cumulate_num_nz` (entry `r` is the sum of the entries before `r`). -/
def exclScan (acc : Nat) : List Nat → List Nat
  | [] => []
  | x :: xs => acc :: exclScan (acc + x) xs

/-- The result triple of `_find_diagonal_sparse_blocks`: per-block position lists,
the block charges as a charge object, and the 2-row table of block dimensions. -/
structure BlocksResult where
  blockMaps : List (List Nat)
  blockQnums : ChargeObj
  blockDims : List (List Nat)
deriving DecidableEq, Repr

/-- `_find_diagonal_sparse_blocks(charges, flows, partition)`: positions, charges and
matrix dimensions of all symmetry blocks of the tensor matricized at `partition`.
`none` models the `IndexError` on an empty `charges` list (`charges[0]` is read
unconditionally).  The source's two gather strategies for `row_locs` are identical in
output (spec §4.6 step 6); the direct per-block scan is modelled. -/
def findDiagonalSparseBlocks (charges : List (List Int)) (flows : List Bool)
    (partition : Nat) : Option BlocksResult :=
  match charges with
  | [] => none
  | _ :: _ =>
    if partition = 0 ∨ partition = charges.length then
      let numNonzero := computeNumNonzero charges flows
      some ⟨[List.range numNonzero], ⟨[0], []⟩,
        if partition = flows.length then [[numNonzero], [1]] else [[1], [numNonzero]]⟩
    else
      let rowPairs := computeFusedChargeDegeneracies (charges.take partition)
        (flows.take partition)
      let colPairs := computeFusedChargeDegeneracies (charges.drop partition)
        ((flows.drop partition).map (fun b => !b))
      let uniqueRow := rowPairs.map Prod.fst
      let rowDegen := rowPairs.map Prod.snd
      let uniqueCol := colPairs.map Prod.fst
      let colDegen := colPairs.map Prod.snd
      let blockQnums := uniqueRow.filter (fun q => q ∈ uniqueCol)
      let rowToBlock := blockQnums.map (fun q => uniqueRow.indexOf q)
      let colToBlock := blockQnums.map (fun q => uniqueCol.indexOf q)
      let numBlocks := blockQnums.length
      if numBlocks = 0 then
        some ⟨[], ⟨[], []⟩, []⟩
      else
        (reduceCharges (charges.take partition) (flows.take partition) blockQnums).map
          (fun rowInd =>
            let rowNumNz := rowInd.chargeLabels.map
              (fun l => colDegen.getD (colToBlock.getD l 0) 0)
            let cumulateNumNz := exclScan 0 rowNumNz
            let blockDimsRow := (List.range numBlocks).map
              (fun n => rowDegen.getD (rowToBlock.getD n 0) 0)
            let blockDimsCol := (List.range numBlocks).map
              (fun n => colDegen.getD (colToBlock.getD n 0) 0)
            ⟨(List.range numBlocks).map (fun n =>
                ((List.range rowInd.chargeLabels.length).filter
                  (fun r => rowInd.chargeLabels.getD r 0 = n)).flatMap
                  (fun r => (List.range (blockDimsCol.getD n 0)).map
                    (fun j => cumulateNumNz.getD r 0 + j))),
              ⟨blockQnums, List.range numBlocks⟩,
              [blockDimsRow, blockDimsCol]⟩)

/-- The fused flat charges of the row-leg group of a bipartition at `partition`. -/
def rowFused (charges : List (List Int)) (flows : List Bool) (p : Nat) : List Int :=
  fuseChargesFlat (charges.take p) (flows.take p)

/-- The fused flat charges of the column-leg group, under logically negated flows
(the conjugation making "row charge = column charge" the block-match condition). -/
def colFusedNeg (charges : List (List Int)) (flows : List Bool) (p : Nat) : List Int :=
  fuseChargesFlat (charges.drop p) ((flows.drop p).map (fun b => !b))

/-- The allowed block charges of a bipartition: unique row charges that also occur
as (conjugated) column charges, in canonical order. -/
def blockChargesOf (charges : List (List Int)) (flows : List Bool) (p : Nat) : List Int :=
  (uniqueSorted (rowFused charges flows p)).filter
    (fun q => q ∈ uniqueSorted (colFusedNeg charges flows p))

/-- The fused charges of the surviving row positions (those whose charge is an
allowed block charge), in row-major order. -/
def survivingRows (charges : List (List Int)) (flows : List Bool) (p : Nat) : List Int :=
  (rowFused charges flows p).filter (fun q => q ∈ blockChargesOf charges flows p)

/-- Per surviving row, the index of its block charge (the reducer's labels). -/
def rowBlockLabels (charges : List (List Int)) (flows : List Bool) (p : Nat) : List Nat :=
  (survivingRows charges flows p).map (fun q => (blockChargesOf charges flows p).indexOf q)

/-- Per surviving row, its number of non-zero column entries: the column-group
degeneracy of its block charge. -/
def rowNumNzOf (charges : List (List Int)) (flows : List Bool) (p : Nat) : List Nat :=
  (survivingRows charges flows p).map (fun q => (colFusedNeg charges flows p).count q)

/-! ### Properties of `uniqueSorted` -/

theorem mem_insertUnique {x a : Int} {l : List Int} :
    x ∈ insertUnique a l ↔ x = a ∨ x ∈ l := by
  induction l with
  | nil => simp [insertUnique]
  | cons y ys ih =>
    by_cases h1 : a < y
    · simp [insertUnique, h1]
    · by_cases h2 : a = y
      · subst h2
        simp only [insertUnique, h1]
        simp only [ite_true, ite_false, if_neg h1, List.mem_cons]
        tauto
      · simp only [insertUnique, if_neg h1, if_neg h2, List.mem_cons, ih]
        tauto

theorem pairwise_insertUnique {a : Int} {l : List Int}
    (h : List.Pairwise (· < ·) l) : List.Pairwise (· < ·) (insertUnique a l) := by
  induction l with
  | nil => simp [insertUnique]
  | cons y ys ih =>
    obtain ⟨hy, hys⟩ := List.pairwise_cons.mp h
    by_cases h1 : a < y
    · simp only [insertUnique, if_pos h1]
      refine List.Pairwise.cons ?_ (List.Pairwise.cons hy hys)
      intro b hb
      rcases List.mem_cons.mp hb with rfl | hb
      · exact h1
      · exact h1.trans (hy b hb)
    · by_cases h2 : a = y
      · simpa [insertUnique, h1, h2] using List.Pairwise.cons hy hys
      · have hya : y < a := by omega
        simp only [insertUnique, if_neg h1, if_neg h2]
        refine List.Pairwise.cons ?_ (ih hys)
        intro b hb
        rcases mem_insertUnique.mp hb with rfl | hb
        · exact hya
        · exact hy b hb

theorem mem_uniqueSorted {x : Int} {l : List Int} :
    x ∈ uniqueSorted l ↔ x ∈ l := by
  induction l with
  | nil => simp [uniqueSorted]
  | cons y ys ih =>
    simp only [uniqueSorted, List.foldr_cons]
    rw [show ys.foldr insertUnique [] = uniqueSorted ys from rfl] at *
    simp [mem_insertUnique, ih]

theorem pairwise_uniqueSorted (l : List Int) :
    List.Pairwise (· < ·) (uniqueSorted l) := by
  induction l with
  | nil => simp [uniqueSorted]
  | cons y ys ih => exact pairwise_insertUnique ih

theorem nodup_uniqueSorted (l : List Int) : (uniqueSorted l).Nodup :=
  (pairwise_uniqueSorted l).imp ne_of_lt

/-- Two ascending duplicate-free integer lists with the same members are equal. -/
theorem sortedNodup_ext {l₁ l₂ : List Int} (h₁ : List.Pairwise (· < ·) l₁)
    (h₂ : List.Pairwise (· < ·) l₂) (h : ∀ x, x ∈ l₁ ↔ x ∈ l₂) : l₁ = l₂ := by
  induction l₁ generalizing l₂ with
  | nil =>
    cases l₂ with
    | nil => rfl
    | cons b t₂ => exact absurd ((h b).mpr (List.mem_cons_self b t₂)) (List.not_mem_nil b)
  | cons a t₁ ih =>
    cases l₂ with
    | nil => exact absurd ((h a).mp (List.mem_cons_self a t₁)) (List.not_mem_nil a)
    | cons b t₂ =>
      obtain ⟨ha, ht₁⟩ := List.pairwise_cons.mp h₁
      obtain ⟨hb, ht₂⟩ := List.pairwise_cons.mp h₂
      have hab : a = b := by
        rcases List.mem_cons.mp ((h a).mp (List.mem_cons_self a t₁)) with h' | h'
        · exact h'
        · rcases List.mem_cons.mp ((h b).mpr (List.mem_cons_self b t₂)) with h'' | h''
          · exact h''.symm
          · exact absurd (lt_trans (hb a h') (ha b h'')) (lt_irrefl b)
      subst hab
      have ht : t₁ = t₂ := by
        refine ih ht₁ ht₂ (fun x => ⟨fun hx => ?_, fun hx => ?_⟩)
        · rcases List.mem_cons.mp ((h x).mp (List.mem_cons.mpr (Or.inr hx))) with h' | h'
          · exact absurd (h' ▸ ha x hx) (lt_irrefl a)
          · exact h'
        · rcases List.mem_cons.mp ((h x).mpr (List.mem_cons.mpr (Or.inr hx))) with h' | h'
          · exact absurd (h' ▸ hb x hx) (lt_irrefl a)
          · exact h'
      rw [ht]

theorem uniqueSorted_eq_of_mem_iff {l₁ l₂ : List Int}
    (h : ∀ x, x ∈ l₁ ↔ x ∈ l₂) : uniqueSorted l₁ = uniqueSorted l₂ :=
  sortedNodup_ext (pairwise_uniqueSorted l₁) (pairwise_uniqueSorted l₂)
    (fun x => by simp [mem_uniqueSorted, h x])

/-! ### `getD` / `indexOf` basics -/

theorem getD_indexOf {x : Int} {l : List Int} (h : x ∈ l) (d : Int) :
    l.getD (l.indexOf x) d = x := by
  rw [List.getD_eq_getElem l d (List.indexOf_lt_length.mpr h)]
  exact List.getElem_indexOf _

theorem getD_map_of_lt {α β : Type} [Inhabited β] (f : α → β) (l : List α) {i : Nat}
    (h : i < l.length) (d : β) (d' : α) : (l.map f).getD i d = f (l.getD i d') := by
  rw [List.getD_eq_getElem _ d (by simpa using h), List.getD_eq_getElem _ d' h]
  exact List.getElem_map f

theorem indexOf_getD_of_nodup {l : List Int} (h : l.Nodup) {b : Nat}
    (hb : b < l.length) (d : Int) : l.indexOf (l.getD b d) = b := by
  rw [List.getD_eq_getElem l d hb]
  have h1 : List.indexOf l[b] l < l.length := List.indexOf_lt_length.mpr (l.getElem_mem hb)
  exact (List.Nodup.getElem_inj_iff h).mp (List.getElem_indexOf h1)

/-! ### Fusion: lengths, membership, splitting -/

theorem length_fuseTwo (a b : List Int) : (fuseTwo a b).length = a.length * b.length := by
  induction a with
  | nil => simp [fuseTwo]
  | cons x xs ih =>
    simp only [fuseTwo, List.flatMap_cons, List.length_append, List.length_map,
      List.length_cons] at *
    rw [ih]
    ring

theorem mem_fuseTwo {z : Int} {a b : List Int} :
    z ∈ fuseTwo a b ↔ ∃ x ∈ a, ∃ y ∈ b, z = x + y := by
  simp only [fuseTwo, List.mem_flatMap, List.mem_map]
  constructor
  · rintro ⟨x, hx, y, hy, rfl⟩
    exact ⟨x, hx, y, hy, rfl⟩
  · rintro ⟨x, hx, y, hy, rfl⟩
    exact ⟨x, hx, y, hy, rfl⟩

theorem fuseTwo_assoc (a b c : List Int) :
    fuseTwo (fuseTwo a b) c = fuseTwo a (fuseTwo b c) := by
  simp only [fuseTwo, List.flatMap_assoc, List.flatMap_map, List.map_flatMap,
    List.map_map]
  refine List.flatMap_congr (fun x _ => ?_)
  refine List.flatMap_congr (fun y _ => ?_)
  refine List.map_congr_left (fun w _ => ?_)
  simp [Function.comp, add_assoc]

theorem legsFuse_append (acc : List Int) (A B : List (List Int)) (FA FB : List Bool)
    (h : A.length = FA.length) :
    legsFuse acc (A ++ B) (FA ++ FB) = legsFuse (legsFuse acc A FA) B FB := by
  induction A generalizing FA acc with
  | nil =>
    cases FA with
    | nil => simp [legsFuse]
    | cons f fs => simp at h
  | cons a A' ih =>
    cases FA with
    | nil => simp at h
    | cons f FA' =>
      simp only [List.cons_append, legsFuse]
      exact ih (fuseTwo acc (dualList f a)) FA' (by simpa using h)

theorem legsFuse_eq_fuseTwo (acc : List Int) (cs : List (List Int)) (fs : List Bool)
    (hne : cs ≠ []) (hlen : cs.length ≤ fs.length) :
    legsFuse acc cs fs = fuseTwo acc (fuseChargesFlat cs fs) := by
  induction cs generalizing fs acc with
  | nil => exact absurd rfl hne
  | cons c cs' ih =>
    cases fs with
    | nil => simp at hlen
    | cons f fs' =>
      cases cs' with
      | nil => simp [legsFuse, fuseChargesFlat]
      | cons c' cs'' =>
        have h1 : legsFuse acc (c :: c' :: cs'') (f :: fs') =
            legsFuse (fuseTwo acc (dualList f c)) (c' :: cs'') fs' := rfl
        have h2 : fuseChargesFlat (c :: c' :: cs'') (f :: fs') =
            legsFuse (dualList f c) (c' :: cs'') fs' := rfl
        rw [h1, h2, ih (fuseTwo acc (dualList f c)) fs' (by simp)
            (by simpa using Nat.le_of_succ_le_succ hlen),
          ih (dualList f c) fs' (by simp) (by simpa using Nat.le_of_succ_le_succ hlen),
          fuseTwo_assoc]

theorem fuseChargesFlat_split (charges : List (List Int)) (flows : List Bool) (p : Nat)
    (hp1 : 1 ≤ p) (hp2 : p < charges.length) (hlen : flows.length = charges.length) :
    fuseChargesFlat charges flows =
      fuseTwo (fuseChargesFlat (charges.take p) (flows.take p))
              (fuseChargesFlat (charges.drop p) (flows.drop p)) := by
  have hA : (charges.take p).length = (flows.take p).length := by
    simp [List.length_take, hlen]
  have hcd : charges = charges.take p ++ charges.drop p := (List.take_append_drop p charges).symm
  have hfd : flows = flows.take p ++ flows.drop p := (List.take_append_drop p flows).symm
  cases hA' : charges.take p with
  | nil =>
    have : (charges.take p).length = p := by
      simp [List.length_take]
      omega
    rw [hA'] at this
    simp at this
    omega
  | cons a A' =>
    cases hFA' : flows.take p with
    | nil =>
      rw [hA', hFA'] at hA
      simp at hA
    | cons f FA' =>
      have hBne : charges.drop p ≠ [] := by
        intro hc
        have := List.length_drop p charges
        rw [hc] at this
        simp at this
        omega
      have hBlen : (charges.drop p).length ≤ (flows.drop p).length := by
        simp [List.length_drop, hlen]
      conv_lhs => rw [hcd, hfd, hA', hFA']
      have h1 : fuseChargesFlat ((a :: A') ++ charges.drop p) ((f :: FA') ++ flows.drop p) =
          legsFuse (dualList f a) (A' ++ charges.drop p) (FA' ++ flows.drop p) := rfl
      rw [h1, legsFuse_append (dualList f a) A' (charges.drop p) FA' (flows.drop p)
          (by rw [hA', hFA'] at hA; simpa using hA)]
      have h2 : legsFuse (dualList f a) A' FA' = fuseChargesFlat (a :: A') (f :: FA') := rfl
      rw [h2, ← hA', ← hFA']
      exact legsFuse_eq_fuseTwo _ _ _ hBne hBlen

theorem length_legsFuse (acc : List Int) (cs : List (List Int)) (fs : List Bool)
    (h : cs.length ≤ fs.length) :
    (legsFuse acc cs fs).length = acc.length * (cs.map List.length).prod := by
  induction cs generalizing fs acc with
  | nil => simp [legsFuse]
  | cons c cs' ih =>
    cases fs with
    | nil => simp at h
    | cons f fs' =>
      have hih := ih (fuseTwo acc (dualList f c)) fs' (by simpa using Nat.le_of_succ_le_succ h)
      show (legsFuse (fuseTwo acc (dualList f c)) cs' fs').length = _
      rw [hih, length_fuseTwo]
      simp only [dualList, List.length_map, List.map_cons, List.prod_cons]
      ring

theorem length_fuseChargesFlat (charges : List (List Int)) (flows : List Bool)
    (hne : charges ≠ []) (hlen : charges.length ≤ flows.length) :
    (fuseChargesFlat charges flows).length = (charges.map List.length).prod := by
  cases charges with
  | nil => exact absurd rfl hne
  | cons c cs =>
    cases flows with
    | nil => simp at hlen
    | cons f fs =>
      have h1 : fuseChargesFlat (c :: cs) (f :: fs) = legsFuse (dualList f c) cs fs := rfl
      rw [h1, length_legsFuse _ _ _ (by simpa using Nat.le_of_succ_le_succ hlen)]
      simp [dualList]

/-! ### Negated flows negate the fused charges -/

theorem dualList_not (f : Bool) (c : List Int) :
    dualList (!f) c = (dualList f c).map (fun q => -q) := by
  simp only [dualList, List.map_map]
  refine List.map_congr_left (fun x _ => ?_)
  cases f <;> simp [dual, Function.comp]

theorem fuseTwo_map_neg (a b : List Int) :
    fuseTwo (a.map (fun q => -q)) (b.map (fun q => -q)) = (fuseTwo a b).map (fun q => -q) := by
  simp only [fuseTwo, List.flatMap_map, List.map_flatMap, List.map_map]
  refine List.flatMap_congr (fun x _ => ?_)
  refine List.map_congr_left (fun y _ => ?_)
  simp [Function.comp]
  ring

theorem legsFuse_map_neg (acc : List Int) (cs : List (List Int)) (fs : List Bool) :
    legsFuse (acc.map (fun q => -q)) cs (fs.map (fun b => !b)) =
      (legsFuse acc cs fs).map (fun q => -q) := by
  induction cs generalizing fs acc with
  | nil => simp [legsFuse]
  | cons c cs' ih =>
    cases fs with
    | nil => simp [legsFuse]
    | cons f fs' =>
      simp only [List.map_cons, legsFuse]
      rw [← ih (fuseTwo acc (dualList f c)) fs']
      rw [← fuseTwo_map_neg, ← dualList_not]

theorem fuseChargesFlat_not (cs : List (List Int)) (fs : List Bool) :
    fuseChargesFlat cs (fs.map (fun b => !b)) =
      (fuseChargesFlat cs fs).map (fun q => -q) := by
  cases cs with
  | nil => simp [fuseChargesFlat]
  | cons c cs' =>
    cases fs with
    | nil => simp [fuseChargesFlat]
    | cons f fs' =>
      have h1 : fuseChargesFlat (c :: cs') ((f :: fs').map (fun b => !b)) =
          legsFuse (dualList (!f) c) cs' (fs'.map (fun b => !b)) := rfl
      have h2 : fuseChargesFlat (c :: cs') (f :: fs') = legsFuse (dualList f c) cs' fs' := rfl
      rw [h1, h2, dualList_not, legsFuse_map_neg]

/-! ### Counting fused charges -/

theorem count_map_add_left (x v : Int) (b : List Int) :
    (b.map (fun y => x + y)).count v = b.count (v - x) := by
  induction b with
  | nil => simp
  | cons y ys ih =>
    simp only [List.map_cons, List.count_cons, ih]
    congr 1
    have h : (x + y == v) = (y == v - x) := by
      by_cases h' : x + y = v
      · have : y = v - x := by omega
        simp [h', this]
      · have : ¬ (y = v - x) := by omega
        simp [h', this]
    rw [h]

theorem count_map_neg (v : Int) (b : List Int) :
    (b.map (fun q => -q)).count v = b.count (-v) := by
  induction b with
  | nil => simp
  | cons y ys ih =>
    simp only [List.map_cons, List.count_cons, ih]
    congr 1
    have h : (-y == v) = (y == -v) := by
      by_cases h' : -y = v
      · have : y = -v := by omega
        simp [h', this]
      · have : ¬ (y = -v) := by omega
        simp [h', this]
    rw [h]

theorem count_fuseTwo (v : Int) (a b : List Int) :
    (fuseTwo a b).count v = (a.map (fun x => b.count (v - x))).sum := by
  induction a with
  | nil => simp [fuseTwo]
  | cons x xs ih =>
    simp only [fuseTwo, List.flatMap_cons, List.count_append, List.map_cons, List.sum_cons]
    rw [count_map_add_left]
    simp only [fuseTwo] at ih
    rw [ih]

theorem sum_flatMap {α : Type} (l : List α) (g : α → List Nat) :
    (l.flatMap g).sum = (l.map (fun a => (g a).sum)).sum := by
  induction l with
  | nil => simp
  | cons x xs ih => simp [List.flatMap_cons, ih]

theorem sum_map_split {α : Type} (F : List α) (p : α → Bool) (g : α → Nat) :
    (F.map g).sum = ((F.filter p).map g).sum + ((F.filter (fun x => !(p x))).map g).sum := by
  induction F with
  | nil => simp
  | cons x xs ih =>
    by_cases h : p x
    · simp [List.filter_cons, h, ih]
      omega
    · simp [List.filter_cons, h, ih]
      omega

/-- Every element of `F.filter (· = v)` is `v`, so summing `g` over it yields
`count v F * g v`. -/
theorem sum_map_filter_eq_val (F : List Int) (v : Int) (g : Int → Nat) :
    ((F.filter (fun x => x = v)).map g).sum = F.count v * g v := by
  induction F with
  | nil => simp
  | cons x xs ih =>
    by_cases h : x = v
    · subst h
      simp [List.filter_cons, List.count_cons, ih]
      ring
    · simp [List.filter_cons, h, List.count_cons, ih]

/-- Group a sum over a list by a duplicate-free list of values covering it. -/
theorem sum_map_group (vals : List Int) (g : Int → Nat) :
    ∀ F : List Int, vals.Nodup → (∀ x ∈ F, x ∈ vals) →
    (F.map g).sum = (vals.map (fun u => F.count u * g u)).sum := by
  induction vals with
  | nil =>
    intro F _ hcov
    cases F with
    | nil => simp
    | cons x xs => exact absurd (hcov x (List.mem_cons_self x xs)) (List.not_mem_nil x)
  | cons v vs ih =>
    intro F hnd hcov
    obtain ⟨hv, hvs⟩ := List.nodup_cons.mp hnd
    rw [sum_map_split F (fun x => x = v) g, sum_map_filter_eq_val]
    have hcov' : ∀ x ∈ F.filter (fun x => !(decide (x = v))), x ∈ vs := by
      intro x hx
      obtain ⟨hxF, hxv⟩ := List.mem_filter.mp hx
      have hxv' : x ≠ v := by simpa using hxv
      rcases List.mem_cons.mp (hcov x hxF) with h | h
      · exact absurd h hxv'
      · exact h
    rw [ih (F.filter (fun x => !(decide (x = v)))) hvs hcov']
    simp only [List.map_cons, List.sum_cons]
    congr 1
    refine congrArg List.sum (List.map_congr_left (fun u hu => ?_))
    have huv : u ≠ v := fun h => hv (h ▸ hu)
    congr 1
    exact List.count_filter (by simpa using huv)

/-- Dropping elements on which the summand vanishes does not change the sum. -/
theorem sum_map_filter_of_zero {α : Type} (F : List α) (p : α → Bool) (g : α → Nat)
    (h : ∀ x ∈ F, p x = false → g x = 0) :
    ((F.filter p).map g).sum = (F.map g).sum := by
  induction F with
  | nil => simp
  | cons x xs ih =>
    have ih' := ih (fun y hy => h y (List.mem_cons_of_mem x hy))
    by_cases hp : p x
    · simp [List.filter_cons, hp, ih']
    · have : g x = 0 := h x (List.mem_cons_self x xs) (by simpa using hp)
      simp [List.filter_cons, hp, ih', this]

theorem filter_eq_of_nodup (K : List Int) (h : K.Nodup) (w : Int) :
    K.filter (fun x => x = w) = if w ∈ K then [w] else [] := by
  induction K with
  | nil => simp
  | cons x xs ih =>
    obtain ⟨hx, hxs⟩ := List.nodup_cons.mp h
    by_cases hxw : x = w
    · subst hxw
      have hnx : x ∉ xs := hx
      rw [if_pos (List.mem_cons_self x xs)]
      simp only [List.filter_cons, decide_eq_true_eq, ite_true, eq_self_iff_true]
      rw [ih hxs, if_neg hnx]
    · simp only [List.filter_cons]
      rw [ih hxs]
      by_cases hw : w ∈ xs
      · simp [hxw, hw, List.mem_cons]
      · have hwx : ¬ w = x := fun h' => hxw h'.symm
        simp [hxw, hw, hwx]

theorem dual_dual (f : Bool) (q : Int) : dual f (dual f q) = q := by
  cases f <;> simp [dual]

theorem count_dualList (f : Bool) (c : List Int) (y : Int) :
    (dualList f c).count y = c.count (dual f y) := by
  cases f with
  | false =>
    have h : dualList false c = c := by
      have h0 : List.map (dual false) c = List.map id c :=
        List.map_congr_left (fun x _ => by simp [dual])
      simpa [dualList] using h0
    rw [h]
    simp [dual]
  | true =>
    have h : dualList true c = c.map (fun q => -q) := by
      simp [dualList, dual]
    rw [h, count_map_neg]
    simp [dual]

theorem mem_dualList {y : Int} {f : Bool} {c : List Int} :
    y ∈ dualList f c ↔ ∃ w ∈ c, y = dual f w := by
  simp only [dualList, List.mem_map]
  constructor
  · rintro ⟨w, hw, rfl⟩
    exact ⟨w, hw, rfl⟩
  · rintro ⟨w, hw, rfl⟩
    exact ⟨w, hw, rfl⟩

/-- The convolution step of the degeneracy fold agrees with counting in the fused
flat array: one leg-fusion step on exact unique/count data stays exact. -/
theorem fuseStep_eq (f : Bool) (F c : List Int) :
    fuseStep f (uniqueCounts F) c = uniqueCounts (fuseTwo F (dualList f c)) := by
  have hvals : uniqueSorted
      (((uniqueCounts F).flatMap (fun ud => (uniqueCounts c).map
        (fun we => (ud.1 + dual f we.1, ud.2 * we.2)))).map Prod.fst) =
      uniqueSorted (fuseTwo F (dualList f c)) := by
    refine uniqueSorted_eq_of_mem_iff (fun v => ?_)
    simp only [List.map_flatMap, List.map_map, List.mem_flatMap, List.mem_map,
      uniqueCounts, mem_fuseTwo, mem_dualList]
    constructor
    · rintro ⟨ud, ⟨u, hu, rfl⟩, hv⟩
      simp only [List.mem_map, Function.comp] at hv
      obtain ⟨w, hw, rfl⟩ := hv
      exact ⟨u, mem_uniqueSorted.mp hu, dual f w, ⟨w, mem_uniqueSorted.mp hw, rfl⟩, rfl⟩
    · rintro ⟨x, hx, y, ⟨w, hw, rfl⟩, rfl⟩
      refine ⟨(x, F.count x), ⟨x, mem_uniqueSorted.mpr hx, rfl⟩, ?_⟩
      simp only [List.mem_map, Function.comp]
      exact ⟨w, mem_uniqueSorted.mpr hw, rfl⟩
  have hcount : ∀ v : Int,
      ((((uniqueCounts F).flatMap (fun ud => (uniqueCounts c).map
        (fun we => (ud.1 + dual f we.1, ud.2 * we.2)))).filter
          (fun q => q.1 = v)).map Prod.snd).sum =
      (fuseTwo F (dualList f c)).count v := by
    intro v
    rw [List.filter_flatMap, List.map_flatMap, sum_flatMap]
    have hinner : ∀ ud : Int × Nat,
        ((((uniqueCounts c).map (fun we => (ud.1 + dual f we.1, ud.2 * we.2))).filter
          (fun q => q.1 = v)).map Prod.snd).sum =
        ud.2 * (dualList f c).count (v - ud.1) := by
      intro ud
      have h1 : (uniqueCounts c).map (fun we => (ud.1 + dual f we.1, ud.2 * we.2)) =
          (uniqueSorted c).map (fun w => (ud.1 + dual f w, ud.2 * c.count w)) := by
        simp [uniqueCounts, List.map_map, Function.comp]
      rw [h1, List.filter_map, List.map_map]
      have h2 : ((fun q : Int × Nat => decide (q.1 = v)) ∘
          (fun w => (ud.1 + dual f w, ud.2 * c.count w))) =
          fun w => decide (w = dual f (v - ud.1)) := by
        funext w
        simp only [Function.comp, decide_eq_decide]
        constructor
        · intro h
          have : dual f w = v - ud.1 := by omega
          rw [← this, dual_dual]
        · intro h
          subst h
          rw [dual_dual]
          omega
      rw [h2, filter_eq_of_nodup _ (nodup_uniqueSorted c)]
      rw [count_dualList]
      by_cases hmem : dual f (v - ud.1) ∈ uniqueSorted c
      · rw [if_pos hmem]
        simp [Function.comp]
      · rw [if_neg hmem]
        have : c.count (dual f (v - ud.1)) = 0 :=
          List.count_eq_zero.mpr (fun hc => hmem (mem_uniqueSorted.mpr hc))
        simp [this]
    calc ((uniqueCounts F).map (fun ud =>
            ((((uniqueCounts c).map (fun we => (ud.1 + dual f we.1, ud.2 * we.2))).filter
              (fun q => q.1 = v)).map Prod.snd).sum)).sum
        = ((uniqueCounts F).map (fun ud => ud.2 * (dualList f c).count (v - ud.1))).sum := by
          exact congrArg List.sum (List.map_congr_left (fun ud _ => hinner ud))
      _ = ((uniqueSorted F).map (fun u => F.count u * (dualList f c).count (v - u))).sum := by
          simp only [uniqueCounts, List.map_map]
          exact congrArg List.sum (List.map_congr_left (fun u _ => by simp [Function.comp]))
      _ = (F.map (fun x => (dualList f c).count (v - x))).sum := by
          rw [sum_map_group (uniqueSorted F) (fun x => (dualList f c).count (v - x)) F
            (nodup_uniqueSorted F) (fun x hx => mem_uniqueSorted.mpr hx)]
      _ = (fuseTwo F (dualList f c)).count v := (count_fuseTwo v F (dualList f c)).symm
  show (uniqueSorted (((uniqueCounts F).flatMap (fun ud => (uniqueCounts c).map
      (fun we => (ud.1 + dual f we.1, ud.2 * we.2)))).map Prod.fst)).map
      (fun v => (v, ((((uniqueCounts F).flatMap (fun ud => (uniqueCounts c).map
        (fun we => (ud.1 + dual f we.1, ud.2 * we.2)))).filter
          (fun q => q.1 = v)).map Prod.snd).sum)) =
    (uniqueSorted (fuseTwo F (dualList f c))).map
      (fun v => (v, (fuseTwo F (dualList f c)).count v))
  rw [hvals]
  refine List.map_congr_left (fun v _ => ?_)
  exact congrArg (fun s => (v, s)) (hcount v)

/-- The leg loop of the degeneracy fold preserves exactness of the accumulator. -/
theorem legsFold_eq (cs : List (List Int)) (fs : List Bool) :
    ∀ F : List Int, legsFold (uniqueCounts F) cs fs = uniqueCounts (legsFuse F cs fs) := by
  induction cs generalizing fs with
  | nil =>
    intro F
    cases fs <;> rfl
  | cons c cs' ih =>
    intro F
    cases fs with
    | nil => rfl
    | cons f fs' =>
      show legsFold (fuseStep f (uniqueCounts F) c) cs' fs' =
        uniqueCounts (legsFuse (fuseTwo F (dualList f c)) cs' fs')
      rw [fuseStep_eq, ih fs' (fuseTwo F (dualList f c))]

/-- `compute_fused_charge_degeneracies` is exact: it returns precisely the unique
values of the full fused flat charge array with their multiplicities. -/
theorem computeFusedChargeDegeneracies_eq (charges : List (List Int)) (flows : List Bool) :
    computeFusedChargeDegeneracies charges flows =
      uniqueCounts (fuseChargesFlat charges flows) := by
  cases charges with
  | nil => cases flows <;> rfl
  | cons c cs =>
    cases flows with
    | nil => rfl
    | cons f fs =>
      show legsFold (uniqueCounts (dualList f c)) cs fs = _
      rw [legsFold_eq cs fs (dualList f c)]
      rfl

theorem uniqueCounts_map_fst (l : List Int) :
    (uniqueCounts l).map Prod.fst = uniqueSorted l := by
  rw [uniqueCounts, List.map_map]
  exact (List.map_congr_left (fun v _ => rfl)).trans (List.map_id _)

theorem sum_uniqueCounts_snd (l : List Int) :
    ((uniqueCounts l).map Prod.snd).sum = l.length := by
  have h1 : (uniqueCounts l).map Prod.snd = (uniqueSorted l).map (fun v => l.count v) := by
    simp [uniqueCounts, List.map_map, Function.comp]
  have h2 := sum_map_group (uniqueSorted l) (fun _ => 1) l (nodup_uniqueSorted l)
    (fun x hx => mem_uniqueSorted.mpr hx)
  simp only [mul_one] at h2
  rw [h1, ← h2]
  simp

/-- `compute_num_nonzero` counts exactly the occurrences of the identity charge `0`
in the full fused flat charge array. -/
theorem computeNumNonzero_eq (charges : List (List Int)) (flows : List Bool)
    (hlen : flows.length = charges.length) :
    computeNumNonzero charges flows = (fuseChargesFlat charges flows).count 0 := by
  by_cases hany : charges.any (fun c => c.length = 0)
  · have hne : charges ≠ [] := by
      intro h
      subst h
      simp at hany
    obtain ⟨c, hc, hc0⟩ := List.any_eq_true.mp hany
    have h0 : (fuseChargesFlat charges flows).length = 0 := by
      rw [length_fuseChargesFlat charges flows hne (le_of_eq hlen.symm)]
      exact List.prod_eq_zero (List.mem_map.mpr ⟨c, hc, by simpa using hc0⟩)
    have hF : fuseChargesFlat charges flows = [] := List.length_eq_zero.mp h0
    have hstep : computeNumNonzero charges flows = 0 := by
      unfold computeNumNonzero
      rw [if_pos hany]
    rw [hstep, hF]
    simp
  · have hfil : (computeFusedChargeDegeneracies charges flows).filter (fun p => p.1 = 0) =
        if (0 : Int) ∈ uniqueSorted (fuseChargesFlat charges flows) then
          [((0 : Int), (fuseChargesFlat charges flows).count 0)] else [] := by
      rw [computeFusedChargeDegeneracies_eq]
      show ((uniqueSorted (fuseChargesFlat charges flows)).map
        (fun v => (v, (fuseChargesFlat charges flows).count v))).filter
          (fun p => p.1 = 0) = _
      rw [List.filter_map]
      have hc : ((fun p : Int × Nat => decide (p.1 = 0)) ∘
          (fun v => (v, (fuseChargesFlat charges flows).count v))) =
          fun v => decide (v = 0) := by
        funext v
        simp [Function.comp]
      rw [hc, filter_eq_of_nodup _ (nodup_uniqueSorted _) 0]
      by_cases hm : (0 : Int) ∈ uniqueSorted (fuseChargesFlat charges flows)
      · simp [hm]
      · simp [hm]
    have hstep : computeNumNonzero charges flows =
        (match (computeFusedChargeDegeneracies charges flows).filter (fun p => p.1 = 0) with
          | [] => 0
          | p :: _ => p.2) := by
      unfold computeNumNonzero
      rw [if_neg hany]
    rw [hstep, hfil]
    by_cases hm : (0 : Int) ∈ uniqueSorted (fuseChargesFlat charges flows)
    · rw [if_pos hm]
    · rw [if_neg hm]
      exact (List.count_eq_zero.mpr (fun hc => hm (mem_uniqueSorted.mpr hc))).symm

/-- Claim C3: for every non-empty list of charges and equally long list of flows, the
degeneracies returned by `compute_fused_charge_degeneracies` sum to the product of
the lengths of all leg charge arrays. -/
theorem claim_C3 (charges : List (List Int)) (flows : List Bool)
    (hne : charges ≠ []) (hlen : flows.length = charges.length) :
    ((computeFusedChargeDegeneracies charges flows).map Prod.snd).sum =
      (charges.map List.length).prod := by
  rw [computeFusedChargeDegeneracies_eq, sum_uniqueCounts_snd,
    length_fuseChargesFlat charges flows hne (le_of_eq hlen.symm)]

/-- Witness for C3 at a concrete input. -/
theorem claim_C3_witness :
    ((computeFusedChargeDegeneracies [[0, 1], [0, 1, 1]] [true, false]).map Prod.snd).sum =
      ([[0, 1], [0, 1, 1]].map List.length).prod :=
  claim_C3 [[0, 1], [0, 1, 1]] [true, false] (by decide) (by decide)

/-- Claim C6: for every `dims` list with fewer than 2 elements,
`_find_best_partition` fails by reporting an error (modelled as `none`): the explicit
`ValueError` at length 1, and the `ValueError` of `np.min` on the empty difference
list at length 0; it never returns a split index for such input. -/
theorem claim_C6 : findBestPartition [] = none ∧
    ∀ dims : List Nat, dims.length < 2 → findBestPartition dims = none := by
  refine ⟨rfl, fun dims h => ?_⟩
  cases dims with
  | nil => rfl
  | cons d ds =>
    cases ds with
    | nil => simp [findBestPartition]
    | cons d' ds' => exact absurd h (by simp)

/-- Witness for C6 at a concrete input. -/
theorem claim_C6_witness : findBestPartition [5] = none :=
  claim_C6.2 [5] (by decide)

/-- Claim C8: for `charges=[[0,1,0,1]]`, `flows=[true]`, `targetCharges=[0]`,
`compute_sparse_lookup` keeps exactly the two flat positions 0 and 2 (those whose
fused charge matches the target), in their original flat row-major order, and the
compacted lookup has exactly one entry per kept position. -/
theorem claim_C8 :
    sparseLookupKeptPositions [[0, 1, 0, 1]] [true] [0] = [0, 2] ∧
    (computeSparseLookup [[0, 1, 0, 1]] [true] [0]).1.length = 2 := by
  decide

/-! ### Partition selector: argmax and the full characterization -/

theorem argmaxList_lt (l : List Nat) (h : l ≠ []) : argmaxList l < l.length := by
  induction l with
  | nil => exact absurd rfl h
  | cons x xs ih =>
    cases xs with
    | nil => simp [argmaxList]
    | cons y ys =>
      by_cases hcond : x < (y :: ys).getD (argmaxList (y :: ys)) 0
      · rw [show argmaxList (x :: y :: ys) =
            argmaxList (y :: ys) + 1 from by rw [argmaxList, if_pos hcond]]
        have := ih (by simp)
        simpa using this
      · rw [show argmaxList (x :: y :: ys) = 0 from by rw [argmaxList, if_neg hcond]]
        simp

theorem argmaxList_ge (l : List Nat) :
    ∀ i, i < l.length → l.getD i 0 ≤ l.getD (argmaxList l) 0 := by
  induction l with
  | nil =>
    intro i hi
    simp at hi
  | cons x xs ih =>
    cases xs with
    | nil =>
      intro i hi
      have : i = 0 := by simpa using hi
      subst this
      simp [argmaxList]
    | cons y ys =>
      intro i hi
      by_cases hcond : x < (y :: ys).getD (argmaxList (y :: ys)) 0
      · rw [show argmaxList (x :: y :: ys) =
            argmaxList (y :: ys) + 1 from by rw [argmaxList, if_pos hcond]]
        cases i with
        | zero => simpa using le_of_lt hcond
        | succ i' =>
          have := ih i' (by simpa using hi)
          simpa using this
      · rw [show argmaxList (x :: y :: ys) = 0 from by rw [argmaxList, if_neg hcond]]
        cases i with
        | zero => simp
        | succ i' =>
          have h1 := ih i' (by simpa using hi)
          have h2 : (y :: ys).getD (argmaxList (y :: ys)) 0 ≤ x := Nat.le_of_not_lt hcond
          simp only [List.getD_cons_succ, List.getD_cons_zero]
          exact le_trans h1 h2

/-- Full characterization of `_find_best_partition` on valid input: it returns a
split `p ∈ [1, len-1]` whose imbalance is minimal, and whose right product is
maximal among the minimizers. -/
theorem findBestPartition_spec (dims : List Nat) (h2 : 2 ≤ dims.length) :
    ∃ p, findBestPartition dims = some p ∧ 1 ≤ p ∧ p ≤ dims.length - 1 ∧
      (∀ q, 1 ≤ q → q ≤ dims.length - 1 → diffAt dims p ≤ diffAt dims q) ∧
      (∀ q, 1 ≤ q → q ≤ dims.length - 1 → diffAt dims q = diffAt dims p →
        (dims.drop q).prod ≤ (dims.drop p).prod) := by
  have hne1 : ¬ dims.length = 1 := by omega
  set ds := (List.range' 1 (dims.length - 1)).map (fun p => diffAt dims p) with hds
  have hdslen : ds.length = dims.length - 1 := by simp [hds]
  have hdsne : ds ≠ [] := by
    intro h
    rw [h] at hdslen
    simp at hdslen
    omega
  have hgetD : ∀ i, i < ds.length → ds.getD i 0 = diffAt dims (1 + i) := by
    intro i hi
    rw [hds]
    rw [getD_map_of_lt (fun p => diffAt dims p) _ (by simpa [hds] using hi) 0 0]
    congr 1
    rw [List.getD_eq_getElem _ 0 (by simpa [hds] using hi)]
    exact List.getElem_range'_1 i _
  cases hmin : ds.min? with
  | none => exact absurd (List.min?_eq_none_iff.mp hmin) hdsne
  | some m =>
    obtain ⟨hmmem, hmle⟩ := List.min?_eq_some_iff'.mp hmin
    set minInds := (List.range ds.length).filter (fun i => ds.getD i 0 = m) with hmi
    have hmem_minInds : ∀ i, i ∈ minInds ↔ i < ds.length ∧ ds.getD i 0 = m := by
      intro i
      rw [hmi]
      simp [List.mem_filter, List.mem_range]
    have hminne : minInds ≠ [] := by
      obtain ⟨i, hi, hieq⟩ := List.mem_iff_getElem.mp hmmem
      have : i ∈ minInds := (hmem_minInds i).mpr ⟨hi, by rw [List.getD_eq_getElem _ 0 hi, hieq]⟩
      intro h
      rw [h] at this
      exact List.not_mem_nil i this
    have hminpos : 0 < minInds.length := List.length_pos.mpr hminne
    have hresult : ∃ j, j < minInds.length ∧
        findBestPartition dims = some (minInds.getD j 0 + 1) ∧
        (∀ k, k < minInds.length →
          (dims.drop (minInds.getD k 0 + 1)).prod ≤ (dims.drop (minInds.getD j 0 + 1)).prod) := by
      by_cases hlen1 : 1 < minInds.length
      · set rightDims := minInds.map (fun i => (dims.drop (i + 1)).prod) with hrd
        have hrdlen : rightDims.length = minInds.length := by simp [hrd]
        have hrdne : rightDims ≠ [] := by
          intro h
          rw [h] at hrdlen
          simp at hrdlen
          omega
        refine ⟨argmaxList rightDims, by rw [← hrdlen]; exact argmaxList_lt _ hrdne, ?_, ?_⟩
        · show findBestPartition dims = _
          unfold findBestPartition
          rw [if_neg hne1]
          simp only [← hds]
          rw [hmin]
          simp only [← hmi, if_pos hlen1, ← hrd]
        · intro k hk
          have h1 := argmaxList_ge rightDims k (by rw [hrdlen]; exact hk)
          have harglt : argmaxList rightDims < minInds.length := by
            rw [← hrdlen]
            exact argmaxList_lt _ hrdne
          rw [getD_map_of_lt _ _ hk 0 0, getD_map_of_lt _ _ harglt 0 0] at h1
          exact h1
      · have hlen : minInds.length = 1 := by omega
        obtain ⟨i₀, hi₀⟩ := List.length_eq_one.mp hlen
        refine ⟨0, by omega, ?_, ?_⟩
        · show findBestPartition dims = _
          unfold findBestPartition
          rw [if_neg hne1]
          simp only [← hds]
          rw [hmin]
          simp only [← hmi, if_neg hlen1]
        · intro k hk
          have : k = 0 := by omega
          subst this
          exact le_refl _
    obtain ⟨j, hj, heq, htie⟩ := hresult
    have hjmem : minInds.getD j 0 ∈ minInds := by
      rw [List.getD_eq_getElem _ 0 hj]
      exact List.getElem_mem hj
    obtain ⟨hjlt, hjval⟩ := (hmem_minInds _).mp hjmem
    refine ⟨minInds.getD j 0 + 1, heq, by omega, by omega, ?_, ?_⟩
    · intro q hq1 hq2
      have hplt : diffAt dims (minInds.getD j 0 + 1) = m := by
        rw [← hjval, hgetD _ hjlt, Nat.add_comm]
      rw [hplt]
      have hqidx : q - 1 < ds.length := by omega
      have : ds.getD (q - 1) 0 ∈ ds := by
        rw [List.getD_eq_getElem _ 0 hqidx]
        exact List.getElem_mem hqidx
      have := hmle _ this
      rw [hgetD _ hqidx] at this
      have hq : 1 + (q - 1) = q := by omega
      rw [hq] at this
      exact this
    · intro q hq1 hq2 hqeq
      have hplt : diffAt dims (minInds.getD j 0 + 1) = m := by
        rw [← hjval, hgetD _ hjlt, Nat.add_comm]
      have hqidx : q - 1 < ds.length := by omega
      have hqmem : q - 1 ∈ minInds := by
        refine (hmem_minInds _).mpr ⟨hqidx, ?_⟩
        rw [hgetD _ hqidx]
        have hq : 1 + (q - 1) = q := by omega
        rw [hq, hqeq, hplt]
      obtain ⟨k, hk, hkeq⟩ := List.mem_iff_getElem.mp hqmem
      have := htie k hk
      rw [List.getD_eq_getElem _ 0 hk, hkeq] at this
      have hq : q - 1 + 1 = q := by omega
      rw [hq] at this
      exact this

/-- Claim C5: for every `dims` of length at least 2, `_find_best_partition` returns a
split index in `[1, len-1]` minimizing the product imbalance, maximal right product
among minimizers; in particular it returns `2` on `[2,3,4]` and `1` on `[4,4]`. -/
theorem claim_C5 :
    (∀ dims : List Nat, 2 ≤ dims.length →
      ∃ p, findBestPartition dims = some p ∧ 1 ≤ p ∧ p ≤ dims.length - 1 ∧
        (∀ q, 1 ≤ q → q ≤ dims.length - 1 → diffAt dims p ≤ diffAt dims q) ∧
        (∀ q, 1 ≤ q → q ≤ dims.length - 1 → diffAt dims q = diffAt dims p →
          (dims.drop q).prod ≤ (dims.drop p).prod)) ∧
    findBestPartition [2, 3, 4] = some 2 ∧ findBestPartition [4, 4] = some 1 :=
  ⟨findBestPartition_spec, by decide, by decide⟩

/-- Witness for C5 at the concrete input `[2,3,4]`. -/
theorem claim_C5_witness :
    ∃ p, findBestPartition [2, 3, 4] = some p ∧ 1 ≤ p ∧ p ≤ [2, 3, 4].length - 1 ∧
      (∀ q, 1 ≤ q → q ≤ [2, 3, 4].length - 1 → diffAt [2, 3, 4] p ≤ diffAt [2, 3, 4] q) ∧
      (∀ q, 1 ≤ q → q ≤ [2, 3, 4].length - 1 → diffAt [2, 3, 4] q = diffAt [2, 3, 4] p →
        ([2, 3, 4].drop q).prod ≤ ([2, 3, 4].drop p).prod) :=
  claim_C5.1 [2, 3, 4] (by decide)

/-! ### Correctness of the charge reducer -/

/-- Compacting the `-1`-sentinel labels and casting back to `Nat` is the same as
filtering by target membership and indexing into the kept values. -/
theorem filter_toNat_eq (T R : List Int) (l : List Int) :
    ((l.map (fun q => if q ∈ T then (R.indexOf q : Int) else -1)).filter
      (fun z => 0 ≤ z)).map Int.toNat =
    (l.filter (fun q => q ∈ T)).map (fun q => R.indexOf q) := by
  induction l with
  | nil => simp
  | cons q l ih =>
    by_cases hq : q ∈ T
    · simp only [List.map_cons, if_pos hq, List.filter_cons]
      rw [if_pos (by simp), if_pos (by simpa using hq)]
      simp only [List.map_cons, Int.toNat_natCast, ih]
    · simp only [List.map_cons, if_neg hq, List.filter_cons]
      rw [if_neg (by simp), if_neg (by simpa using hq)]
      exact ih

/-- `new_comb_labels`, evaluated at the unique-labels of actual flat elements, is
the sentinel lookup of the fused charge. -/
theorem newCombLabel_eq (L Rt T : List Int) {x y : Int} (hx : x ∈ L) (hy : y ∈ Rt) :
    newCombLabel (uniqueSorted L) (uniqueSorted Rt)
      (uniqueSorted (fuseTwo (uniqueSorted L) (uniqueSorted Rt)))
      ((uniqueSorted (fuseTwo (uniqueSorted L) (uniqueSorted Rt))).filter
        (fun q => q ∈ T)) T
      ((uniqueSorted L).indexOf x) ((uniqueSorted Rt).indexOf y) =
    if x + y ∈ T then
      (((uniqueSorted (fuseTwo (uniqueSorted L) (uniqueSorted Rt))).filter
        (fun q => q ∈ T)).indexOf (x + y) : Int)
    else -1 := by
  set UC := uniqueSorted (fuseTwo (uniqueSorted L) (uniqueSorted Rt)) with hUCd
  have hxU : x ∈ uniqueSorted L := mem_uniqueSorted.mpr hx
  have hyU : y ∈ uniqueSorted Rt := mem_uniqueSorted.mpr hy
  have hqU : x + y ∈ UC := by
    rw [hUCd]
    exact mem_uniqueSorted.mpr (mem_fuseTwo.mpr ⟨x, hxU, y, hyU, rfl⟩)
  have hidx : UC.indexOf (x + y) < UC.length := List.indexOf_lt_length.mpr hqU
  have hrl : UC.indexOf (x + y) < (List.range UC.length).length := by simpa using hidx
  unfold newCombLabel
  rw [getD_indexOf hxU 0, getD_indexOf hyU 0]
  rw [getD_map_of_lt _ (List.range UC.length) hrl (-1) 0]
  have hr0 : (List.range UC.length).getD (UC.indexOf (x + y)) 0 = UC.indexOf (x + y) := by
    rw [List.getD_eq_getElem _ 0 hrl]
    exact List.getElem_range _ hrl
  rw [hr0, getD_indexOf hqU 0]

/-- Compacting the gathered per-row sentinel labels over all left flat positions
yields the filtered, indexed fusion of the two flat sides. -/
theorem labels_chain (L Rt T : List Int) :
    ((L.map (fun q => (uniqueSorted L).indexOf q)).flatMap (fun n =>
      ((Rt.map (fun q => (uniqueSorted Rt).indexOf q)).map
        (fun j => newCombLabel (uniqueSorted L) (uniqueSorted Rt)
          (uniqueSorted (fuseTwo (uniqueSorted L) (uniqueSorted Rt)))
          ((uniqueSorted (fuseTwo (uniqueSorted L) (uniqueSorted Rt))).filter
            (fun q => q ∈ T)) T n j)).filter (fun z => 0 ≤ z))).map Int.toNat =
    ((fuseTwo L Rt).filter (fun q => q ∈ T)).map
      (fun q => ((uniqueSorted (fuseTwo (uniqueSorted L) (uniqueSorted Rt))).filter
        (fun q' => q' ∈ T)).indexOf q) := by
  set LU := uniqueSorted L with hLUd
  set RU := uniqueSorted Rt with hRUd
  set UC := uniqueSorted (fuseTwo LU RU) with hUCd
  set R := UC.filter (fun q => q ∈ T) with hRd
  rw [List.flatMap_map, List.map_flatMap]
  have hstep : ∀ x ∈ L,
      (((Rt.map (fun q => RU.indexOf q)).map
        (fun j => newCombLabel LU RU UC R T (LU.indexOf x) j)).filter
        (fun z => 0 ≤ z)).map Int.toNat =
      ((Rt.map (fun y => x + y)).filter (fun q => q ∈ T)).map (fun q => R.indexOf q) := by
    intro x hx
    rw [List.map_map]
    have hmc : Rt.map ((fun j => newCombLabel LU RU UC R T (LU.indexOf x) j) ∘
        (fun q => RU.indexOf q)) =
        (Rt.map (fun y => x + y)).map
          (fun q => if q ∈ T then (R.indexOf q : Int) else -1) := by
      rw [List.map_map]
      refine List.map_congr_left (fun y hy => ?_)
      simp only [Function.comp]
      exact newCombLabel_eq L Rt T hx hy
    rw [hmc, filter_toNat_eq]
  calc (L.flatMap (fun x =>
          (((Rt.map (fun q => RU.indexOf q)).map
            (fun j => newCombLabel LU RU UC R T (LU.indexOf x) j)).filter
            (fun z => 0 ≤ z)).map Int.toNat))
      = L.flatMap (fun x =>
          ((Rt.map (fun y => x + y)).filter (fun q => q ∈ T)).map
            (fun q => R.indexOf q)) := List.flatMap_congr hstep
    _ = ((L.flatMap (fun x => Rt.map (fun y => x + y))).filter (fun q => q ∈ T)).map
          (fun q => R.indexOf q) := by
        rw [List.filter_flatMap, List.map_flatMap]
    _ = ((fuseTwo L Rt).filter (fun q => q ∈ T)).map (fun q => R.indexOf q) := rfl

/-- The multi-leg body of `reduce_charges` computes exactly the target-filtered
fusion: the kept unique charges are the unique fused charges lying in the target
set, and the labels enumerate, in row-major order, the index of each surviving
position's fused charge. -/
theorem reduceMulti_eq (charges : List (List Int)) (flows : List Bool) (T : List Int)
    (p : Nat) (hp1 : 1 ≤ p) (hp2 : p < charges.length)
    (hlen : flows.length = charges.length) (hlegs : ∀ c ∈ charges, c ≠ []) :
    reduceMulti charges flows T p =
      some ⟨(uniqueSorted (fuseChargesFlat charges flows)).filter (fun q => q ∈ T),
        ((fuseChargesFlat charges flows).filter (fun q => q ∈ T)).map
          (fun q => ((uniqueSorted (fuseChargesFlat charges flows)).filter
            (fun q' => q' ∈ T)).indexOf q)⟩ := by
  have hAne : charges.take p ≠ [] := by
    intro h
    have hlt := List.length_take p charges
    rw [h] at hlt
    simp at hlt
    omega
  have hAlen : (charges.take p).length ≤ (flows.take p).length := by
    simp [List.length_take, hlen]
  have hLlen := length_fuseChargesFlat (charges.take p) (flows.take p) hAne hAlen
  have hLpos : 0 < (fuseChargesFlat (charges.take p) (flows.take p)).length := by
    rw [hLlen]
    apply List.prod_pos
    intro a ha
    obtain ⟨c, hc, rfl⟩ := List.mem_map.mp ha
    exact List.length_pos.mpr (hlegs c (List.mem_of_mem_take hc))
  have hsplit := fuseChargesFlat_split charges flows p hp1 hp2 hlen
  have hUC : uniqueSorted (fuseTwo
      (uniqueSorted (fuseChargesFlat (charges.take p) (flows.take p)))
      (uniqueSorted (fuseChargesFlat (charges.drop p) (flows.drop p)))) =
      uniqueSorted (fuseChargesFlat charges flows) := by
    refine uniqueSorted_eq_of_mem_iff (fun v => ?_)
    rw [hsplit]
    simp only [mem_fuseTwo]
    constructor
    · rintro ⟨x, hx, y, hy, rfl⟩
      exact ⟨x, mem_uniqueSorted.mp hx, y, mem_uniqueSorted.mp hy, rfl⟩
    · rintro ⟨x, hx, y, hy, rfl⟩
      exact ⟨x, mem_uniqueSorted.mpr hx, y, mem_uniqueSorted.mpr hy, rfl⟩
  simp only [reduceMulti]
  rw [if_neg (Nat.pos_iff_ne_zero.mp hLpos)]
  refine congrArg some (congrArg₂ ChargeObj.mk (congrArg (List.filter _) hUC) ?_)
  have hchain := labels_chain (fuseChargesFlat (charges.take p) (flows.take p))
    (fuseChargesFlat (charges.drop p) (flows.drop p)) T
  rw [hchain, ← hsplit, hUC]

/-- `reduce_charges` on a non-empty list of non-empty legs succeeds and computes the
target-filtered fusion (Lemma R of this development). -/
theorem reduceCharges_some (charges : List (List Int)) (flows : List Bool) (T : List Int)
    (hne : charges ≠ []) (hlen : flows.length = charges.length)
    (hlegs : ∀ c ∈ charges, c ≠ []) :
    reduceCharges charges flows T =
      some ⟨(uniqueSorted (fuseChargesFlat charges flows)).filter (fun q => q ∈ T),
        ((fuseChargesFlat charges flows).filter (fun q => q ∈ T)).map
          (fun q => ((uniqueSorted (fuseChargesFlat charges flows)).filter
            (fun q' => q' ∈ T)).indexOf q)⟩ := by
  match charges, flows with
  | [], _ => exact absurd rfl hne
  | [c], [] => simp at hlen
  | [c], f :: fs =>
    have hfs : fs = [] := List.length_eq_zero.mp (by simpa using hlen)
    subst hfs
    show some (singleLegReduce (dualList f c) T) = _
    rfl
  | c1 :: c2 :: rest, flows =>
    obtain ⟨p, hp, hp1, hp2, _, _⟩ :=
      findBestPartition_spec ((c1 :: c2 :: rest).map List.length) (by simp)
    show (match findBestPartition ((c1 :: c2 :: rest).map List.length) with
      | none => none
      | some partition => reduceMulti (c1 :: c2 :: rest) flows T partition) = _
    rw [hp]
    refine reduceMulti_eq (c1 :: c2 :: rest) flows T p hp1 ?_ hlen hlegs
    simp only [List.length_map, List.length_cons] at hp2
    simp only [List.length_cons]
    omega

/-- Every unique combined charge of the two fused sides of a split is a member of
the full fused array. -/
theorem mem_uniqueComb_mem_flat {v : Int} (L Rt : List Int)
    (h : v ∈ uniqueSorted (fuseTwo (uniqueSorted L) (uniqueSorted Rt))) :
    v ∈ fuseTwo L Rt := by
  obtain ⟨x, hx, y, hy, rfl⟩ := mem_fuseTwo.mp (mem_uniqueSorted.mp h)
  exact mem_fuseTwo.mpr ⟨x, mem_uniqueSorted.mp hx, y, mem_uniqueSorted.mp hy, rfl⟩

/-- With no surviving intersection, the location-returning multi-leg reducer returns
the empty charge object and no locations. -/
theorem reduceMultiLocs_empty (charges : List (List Int)) (flows : List Bool)
    (T : List Int) (p : Nat) (hp1 : 1 ≤ p) (hp2 : p < charges.length)
    (hlen : flows.length = charges.length) (hlegs : ∀ c ∈ charges, c ≠ [])
    (hdisj : ∀ q ∈ fuseChargesFlat charges flows, q ∉ T) :
    reduceMultiLocs charges flows T p = some (⟨[], []⟩, []) := by
  have hAne : charges.take p ≠ [] := by
    intro h
    have hlt := List.length_take p charges
    rw [h] at hlt
    simp at hlt
    omega
  have hAlen : (charges.take p).length ≤ (flows.take p).length := by
    simp [List.length_take, hlen]
  have hLlen := length_fuseChargesFlat (charges.take p) (flows.take p) hAne hAlen
  have hLpos : 0 < (fuseChargesFlat (charges.take p) (flows.take p)).length := by
    rw [hLlen]
    apply List.prod_pos
    intro a ha
    obtain ⟨c, hc, rfl⟩ := List.mem_map.mp ha
    exact List.length_pos.mpr (hlegs c (List.mem_of_mem_take hc))
  have hsplit := fuseChargesFlat_split charges flows p hp1 hp2 hlen
  have hdisj' : ∀ q ∈ fuseTwo (fuseChargesFlat (charges.take p) (flows.take p))
      (fuseChargesFlat (charges.drop p) (flows.drop p)), q ∉ T := by
    intro q hq
    exact hdisj q (by rw [hsplit]; exact hq)
  have hlbl : ∀ x ∈ fuseChargesFlat (charges.take p) (flows.take p),
      ∀ y ∈ fuseChargesFlat (charges.drop p) (flows.drop p),
      newCombLabel (uniqueSorted (fuseChargesFlat (charges.take p) (flows.take p)))
        (uniqueSorted (fuseChargesFlat (charges.drop p) (flows.drop p)))
        (uniqueSorted (fuseTwo
          (uniqueSorted (fuseChargesFlat (charges.take p) (flows.take p)))
          (uniqueSorted (fuseChargesFlat (charges.drop p) (flows.drop p)))))
        ((uniqueSorted (fuseTwo
          (uniqueSorted (fuseChargesFlat (charges.take p) (flows.take p)))
          (uniqueSorted (fuseChargesFlat (charges.drop p) (flows.drop p))))).filter
          (fun q => q ∈ T)) T
        ((uniqueSorted (fuseChargesFlat (charges.take p) (flows.take p))).indexOf x)
        ((uniqueSorted (fuseChargesFlat (charges.drop p) (flows.drop p))).indexOf y) = -1 := by
    intro x hx y hy
    rw [newCombLabel_eq _ _ T hx hy]
    rw [if_neg (hdisj' (x + y) (mem_fuseTwo.mpr
      ⟨x, hx, y, hy, rfl⟩))]
  simp only [reduceMultiLocs]
  rw [if_neg (Nat.pos_iff_ne_zero.mp hLpos)]
  refine congrArg some (congrArg₂ Prod.mk (congrArg₂ ChargeObj.mk ?_ ?_) ?_)
  · rw [List.filter_eq_nil_iff]
    intro v hv
    simpa using hdisj' v (mem_uniqueComb_mem_flat _ _ hv)
  · rw [show ([] : List Nat) = List.map Int.toNat [] from rfl]
    refine congrArg (List.map Int.toNat) ?_
    rw [List.flatMap_eq_nil_iff]
    intro n hn
    obtain ⟨x, hx, rfl⟩ := List.mem_map.mp hn
    rw [List.filter_eq_nil_iff]
    intro z hz
    obtain ⟨j, hj, rfl⟩ := List.mem_map.mp hz
    obtain ⟨y, hy, rfl⟩ := List.mem_map.mp hj
    rw [hlbl x hx y hy]
    simp
  · rw [List.flatMap_eq_nil_iff]
    intro i hi
    have hilt : i < (fuseChargesFlat (charges.take p) (flows.take p)).length := by
      simpa using List.mem_range.mp hi
    rw [show ([] : List Nat) = List.map
      (fun q => i * (fuseChargesFlat (charges.drop p) (flows.drop p)).length + q) [] from rfl]
    refine congrArg _ ?_
    rw [List.filter_eq_nil_iff]
    intro j hj
    have hjlt : j < (fuseChargesFlat (charges.drop p) (flows.drop p)).length := by
      simpa using List.mem_range.mp hj
    rw [getD_map_of_lt _ _ hilt 0 0, getD_map_of_lt _ _ hjlt 0 0]
    have hxm : (fuseChargesFlat (charges.take p) (flows.take p)).getD i 0 ∈
        fuseChargesFlat (charges.take p) (flows.take p) := by
      rw [List.getD_eq_getElem _ 0 hilt]
      exact List.getElem_mem hilt
    have hym : (fuseChargesFlat (charges.drop p) (flows.drop p)).getD j 0 ∈
        fuseChargesFlat (charges.drop p) (flows.drop p) := by
      rw [List.getD_eq_getElem _ 0 hjlt]
      exact List.getElem_mem hjlt
    rw [hlbl _ hxm _ hym]
    simp

/-- With no surviving intersection, `reduce_charges(..., return_locations=True)`
returns the empty charge object and an empty location array. -/
theorem reduceChargesWithLocations_empty (charges : List (List Int)) (flows : List Bool)
    (T : List Int) (hne : charges ≠ []) (hlen : flows.length = charges.length)
    (hlegs : ∀ c ∈ charges, c ≠ [])
    (hdisj : ∀ q ∈ fuseChargesFlat charges flows, q ∉ T) :
    reduceChargesWithLocations charges flows T = some (⟨[], []⟩, []) := by
  match charges, flows with
  | [], _ => exact absurd rfl hne
  | [c], [] => simp at hlen
  | [c], f :: fs =>
    have hfs : fs = [] := List.length_eq_zero.mp (by simpa using hlen)
    subst hfs
    have hD : ∀ q ∈ dualList f c, q ∉ T := by
      intro q hq
      exact hdisj q (show q ∈ fuseChargesFlat [c] [f] from hq)
    show some (singleLegReduceLocs (dualList f c) T) = _
    unfold singleLegReduceLocs singleLegReduce
    refine congrArg some (congrArg₂ Prod.mk (congrArg₂ ChargeObj.mk ?_ ?_) ?_)
    · rw [List.filter_eq_nil_iff]
      intro v hv
      simpa using hD v (mem_uniqueSorted.mp hv)
    · rw [show ([] : List Nat) = List.map
        (fun q => ((uniqueSorted (dualList f c)).filter (fun q' => q' ∈ T)).indexOf q) [] from rfl]
      refine congrArg _ ?_
      rw [List.filter_eq_nil_iff]
      intro v hv
      simpa using hD v hv
    · rw [List.filter_eq_nil_iff]
      intro i hi
      have hilt : i < (dualList f c).length := by simpa using List.mem_range.mp hi
      have : (dualList f c).getD i 0 ∈ dualList f c := by
        rw [List.getD_eq_getElem _ 0 hilt]
        exact List.getElem_mem hilt
      simpa using hD _ this
  | c1 :: c2 :: rest, flows =>
    obtain ⟨p, hp, hp1, hp2, _, _⟩ :=
      findBestPartition_spec ((c1 :: c2 :: rest).map List.length) (by simp)
    show (match findBestPartition ((c1 :: c2 :: rest).map List.length) with
      | none => none
      | some partition => reduceMultiLocs (c1 :: c2 :: rest) flows T partition) = _
    rw [hp]
    refine reduceMultiLocs_empty (c1 :: c2 :: rest) flows T p hp1 ?_ hlen hlegs hdisj
    simp only [List.length_map, List.length_cons] at hp2
    simp only [List.length_cons]
    omega

/-- Claim C4 counterexample: with a zero-length leg in the left partition group,
`reduce_charges` fails (the source raises `ValueError` in `np.concatenate`) instead
of returning a charge object of length 0 = product of the leg lengths. -/
theorem claim_C4_counterexample :
    reduceCharges [[], [0]] [true, true]
      ((computeFusedChargeDegeneracies [[], [0]] [true, true]).map Prod.fst) = none := by
  decide

/-- Claim C4 (amended): for every non-empty charges/flows list whose legs are all
non-empty, reducing with `targetCharges` equal to the full set of unique fused
charges returns a charge object whose length is the product of all leg lengths — no
position is filtered out. -/
theorem claim_C4 (charges : List (List Int)) (flows : List Bool)
    (hne : charges ≠ []) (hlen : flows.length = charges.length)
    (hlegs : ∀ c ∈ charges, c ≠ []) :
    ∃ obj, reduceCharges charges flows
        ((computeFusedChargeDegeneracies charges flows).map Prod.fst) = some obj ∧
      obj.chargeLabels.length = (charges.map List.length).prod := by
  rw [reduceCharges_some charges flows _ hne hlen hlegs]
  refine ⟨_, rfl, ?_⟩
  have hT : (computeFusedChargeDegeneracies charges flows).map Prod.fst =
      uniqueSorted (fuseChargesFlat charges flows) := by
    rw [computeFusedChargeDegeneracies_eq, uniqueCounts_map_fst]
  have hall : ∀ a ∈ fuseChargesFlat charges flows,
      decide (a ∈ (computeFusedChargeDegeneracies charges flows).map Prod.fst) = true := by
    intro a ha
    rw [hT]
    simpa using mem_uniqueSorted.mpr ha
  show (((fuseChargesFlat charges flows).filter _).map _).length = _
  rw [List.length_map, List.filter_eq_self.mpr hall,
    length_fuseChargesFlat charges flows hne (le_of_eq hlen.symm)]

/-- Witness for the amended C4 at a concrete input. -/
theorem claim_C4_witness :
    ∃ obj, reduceCharges [[0, 1], [0, 1]] [true, false]
        ((computeFusedChargeDegeneracies [[0, 1], [0, 1]] [true, false]).map Prod.fst) =
        some obj ∧
      obj.chargeLabels.length = ([[0, 1], [0, 1]].map List.length).prod :=
  claim_C4 [[0, 1], [0, 1]] [true, false] (by decide) (by decide) (by decide)

/-- Claim C7 counterexample: on an empty charges list, `reduce_charges` fails (the
source raises `ValueError` via `np.min` of the empty diffs list inside
`_find_best_partition`) instead of returning an empty result. -/
theorem claim_C7_counterexample :
    reduceCharges [] [] [0] = none ∧ reduceChargesWithLocations [] [] [0] = none := by
  decide

/-- Claim C7 (amended): for a non-empty charges list of non-empty legs whose fused
charges have no intersection with `targetCharges`, `reduce_charges` returns empty
results — an empty reduced charge object, and an empty location array when locations
are requested — rather than failing.  (On an empty charges list the source fails in
the partition selector.) -/
theorem claim_C7 (charges : List (List Int)) (flows : List Bool) (T : List Int)
    (hne : charges ≠ []) (hlen : flows.length = charges.length)
    (hlegs : ∀ c ∈ charges, c ≠ [])
    (hdisj : ∀ q ∈ fuseChargesFlat charges flows, q ∉ T) :
    reduceCharges charges flows T = some ⟨[], []⟩ ∧
    reduceChargesWithLocations charges flows T = some (⟨[], []⟩, []) := by
  constructor
  · rw [reduceCharges_some charges flows T hne hlen hlegs]
    refine congrArg some (congrArg₂ ChargeObj.mk ?_ ?_)
    · rw [List.filter_eq_nil_iff]
      intro v hv
      simpa using hdisj v (mem_uniqueSorted.mp hv)
    · rw [show ([] : List Nat) = List.map (fun q =>
        ((uniqueSorted (fuseChargesFlat charges flows)).filter
          (fun q' => q' ∈ T)).indexOf q) [] from rfl]
      refine congrArg _ ?_
      rw [List.filter_eq_nil_iff]
      intro v hv
      simpa using hdisj v hv
  · exact reduceChargesWithLocations_empty charges flows T hne hlen hlegs hdisj

/-- Witness for the amended C7 at a concrete input. -/
theorem claim_C7_witness :
    reduceCharges [[0, 1]] [true] [5] = some ⟨[], []⟩ ∧
    reduceChargesWithLocations [[0, 1]] [true] [5] = some (⟨[], []⟩, []) :=
  claim_C7 [[0, 1]] [true] [5] (by decide) (by decide) (by decide) (by decide)

/-! ### The diagonal block locator -/

theorem getD_range_map {α : Type} [Inhabited α] (g : Nat → α) (K n : Nat) (h : n < K)
    (d : α) : ((List.range K).map g).getD n d = g n := by
  have hr : n < (List.range K).length := by simpa using h
  rw [getD_map_of_lt g (List.range K) hr d 0]
  have hg : (List.range K).getD n 0 = n := by
    rw [List.getD_eq_getElem _ 0 hr]
    exact List.getElem_range _ hr
  rw [hg]

theorem countsGetD (l : List Int) {q : Int} (hq : q ∈ uniqueSorted l) :
    ((uniqueCounts l).map Prod.snd).getD ((uniqueSorted l).indexOf q) 0 = l.count q := by
  have h1 : (uniqueCounts l).map Prod.snd = (uniqueSorted l).map (fun v => l.count v) := by
    rw [uniqueCounts, List.map_map]
    exact List.map_congr_left (fun v _ => rfl)
  have hidx : (uniqueSorted l).indexOf q < (uniqueSorted l).length :=
    List.indexOf_lt_length.mpr hq
  rw [h1, getD_map_of_lt _ _ hidx 0 0, getD_indexOf hq 0]

/-- With no intersection of row and column charges, the block locator returns the
empty result triple (not an error). -/
theorem blocks_empty (charges : List (List Int)) (flows : List Bool) (p : Nat)
    (hne : charges ≠ []) (hp1 : 0 < p) (hp2 : p < charges.length)
    (hbq : blockChargesOf charges flows p = []) :
    findDiagonalSparseBlocks charges flows p = some ⟨[], ⟨[], []⟩, []⟩ := by
  obtain ⟨c, cs, rfl⟩ : ∃ c cs, charges = c :: cs := by
    cases charges with
    | nil => exact absurd rfl hne
    | cons c cs => exact ⟨c, cs, rfl⟩
  simp only [findDiagonalSparseBlocks]
  rw [if_neg (by simp only [List.length_cons] at hp2 ⊢; rintro (h | h) <;> omega)]
  rw [computeFusedChargeDegeneracies_eq (List.take p (c :: cs)) (List.take p flows),
    computeFusedChargeDegeneracies_eq (List.drop p (c :: cs))
      ((List.drop p flows).map (fun b => !b)),
    uniqueCounts_map_fst (fuseChargesFlat (List.take p (c :: cs)) (List.take p flows)),
    uniqueCounts_map_fst (fuseChargesFlat (List.drop p (c :: cs))
      ((List.drop p flows).map (fun b => !b)))]
  rw [show (uniqueSorted (fuseChargesFlat (List.take p (c :: cs)) (List.take p flows))).filter
      (fun q => q ∈ uniqueSorted (fuseChargesFlat (List.drop p (c :: cs))
        ((List.drop p flows).map (fun b => !b)))) = blockChargesOf (c :: cs) flows p from rfl]
  rw [hbq]
  simp

/-- The general branch of `_find_diagonal_sparse_blocks`, fully characterized: block
charges are the intersection of row and (conjugated) column unique charges; block
`n` gathers, over the surviving rows labelled `n` in increasing row order, the
contiguous range of length the column degeneracy starting at that row's cumulative
offset; the dimension table pairs row and column degeneracies per block. -/
theorem blocks_general (charges : List (List Int)) (flows : List Bool) (p : Nat)
    (hne : charges ≠ []) (hlen : flows.length = charges.length)
    (hp1 : 0 < p) (hp2 : p < charges.length)
    (hbq : blockChargesOf charges flows p ≠ []) :
    findDiagonalSparseBlocks charges flows p = some
      ⟨(List.range (blockChargesOf charges flows p).length).map (fun n =>
          ((List.range (rowBlockLabels charges flows p).length).filter
            (fun r => (rowBlockLabels charges flows p).getD r 0 = n)).flatMap
            (fun r => (List.range ((colFusedNeg charges flows p).count
                ((blockChargesOf charges flows p).getD n 0))).map
              (fun j => (exclScan 0 (rowNumNzOf charges flows p)).getD r 0 + j))),
        ⟨blockChargesOf charges flows p,
          List.range (blockChargesOf charges flows p).length⟩,
        [(List.range (blockChargesOf charges flows p).length).map
            (fun n => (rowFused charges flows p).count
              ((blockChargesOf charges flows p).getD n 0)),
         (List.range (blockChargesOf charges flows p).length).map
            (fun n => (colFusedNeg charges flows p).count
              ((blockChargesOf charges flows p).getD n 0))]⟩ := by
  obtain ⟨c, cs, rfl⟩ : ∃ c cs, charges = c :: cs := by
    cases charges with
    | nil => exact absurd rfl hne
    | cons c cs => exact ⟨c, cs, rfl⟩
  have hrow_ne : rowFused (c :: cs) flows p ≠ [] := by
    intro h
    apply hbq
    rw [blockChargesOf, h]
    rfl
  have htake_ne : (c :: cs).take p ≠ [] := by
    cases p with
    | zero => omega
    | succ p' => simp
  have htake_len : (List.take p flows).length = ((c :: cs).take p).length := by
    simp [List.length_take, hlen]
  have hlegsA : ∀ a ∈ (c :: cs).take p, a ≠ [] := by
    intro a ha hcon
    apply hrow_ne
    have hlenrf := length_fuseChargesFlat ((c :: cs).take p) (List.take p flows) htake_ne
      (le_of_eq htake_len.symm)
    refine List.length_eq_zero.mp ?_
    rw [rowFused, hlenrf]
    exact List.prod_eq_zero (List.mem_map.mpr ⟨a, ha, by rw [hcon]; rfl⟩)
  simp only [findDiagonalSparseBlocks]
  rw [if_neg (by simp only [List.length_cons] at hp2 ⊢; rintro (h | h) <;> omega)]
  rw [computeFusedChargeDegeneracies_eq (List.take p (c :: cs)) (List.take p flows),
    computeFusedChargeDegeneracies_eq (List.drop p (c :: cs))
      ((List.drop p flows).map (fun b => !b)),
    uniqueCounts_map_fst (fuseChargesFlat (List.take p (c :: cs)) (List.take p flows)),
    uniqueCounts_map_fst (fuseChargesFlat (List.drop p (c :: cs))
      ((List.drop p flows).map (fun b => !b)))]
  rw [show (uniqueSorted (fuseChargesFlat (List.take p (c :: cs)) (List.take p flows))).filter
      (fun q => q ∈ uniqueSorted (fuseChargesFlat (List.drop p (c :: cs))
        ((List.drop p flows).map (fun b => !b)))) = blockChargesOf (c :: cs) flows p from rfl]
  rw [if_neg (fun h => hbq (List.length_eq_zero.mp h))]
  rw [reduceCharges_some (List.take p (c :: cs)) (List.take p flows)
    (blockChargesOf (c :: cs) flows p) htake_ne htake_len hlegsA]
  rw [Option.map_some']
  refine congrArg some ?_
  have hfBQ : (uniqueSorted (fuseChargesFlat (List.take p (c :: cs)) (List.take p flows))).filter
      (fun q' => q' ∈ blockChargesOf (c :: cs) flows p) = blockChargesOf (c :: cs) flows p := by
    rw [show blockChargesOf (c :: cs) flows p =
      (uniqueSorted (fuseChargesFlat (List.take p (c :: cs)) (List.take p flows))).filter
        (fun q => q ∈ uniqueSorted (fuseChargesFlat (List.drop p (c :: cs))
          ((List.drop p flows).map (fun b => !b)))) from rfl]
    refine List.filter_congr (fun q hq => ?_)
    rw [decide_eq_decide]
    constructor
    · intro h
      exact of_decide_eq_true (List.mem_filter.mp h).2
    · intro h
      exact List.mem_filter.mpr ⟨hq, decide_eq_true h⟩
  have hlabels : ((fuseChargesFlat (List.take p (c :: cs)) (List.take p flows)).filter
      (fun q => q ∈ blockChargesOf (c :: cs) flows p)).map
      (fun q => ((uniqueSorted (fuseChargesFlat (List.take p (c :: cs))
        (List.take p flows))).filter
        (fun q' => q' ∈ blockChargesOf (c :: cs) flows p)).indexOf q) =
      rowBlockLabels (c :: cs) flows p := by
    rw [hfBQ]
    rfl
  have hqBQ_col : ∀ q ∈ blockChargesOf (c :: cs) flows p,
      q ∈ uniqueSorted (fuseChargesFlat (List.drop p (c :: cs))
        ((List.drop p flows).map (fun b => !b))) := by
    intro q hq
    have := (List.mem_filter.mp hq).2
    exact of_decide_eq_true this
  have hqBQ_row : ∀ q ∈ blockChargesOf (c :: cs) flows p,
      q ∈ uniqueSorted (fuseChargesFlat (List.take p (c :: cs)) (List.take p flows)) := by
    intro q hq
    exact (List.mem_filter.mp hq).1
  have hgetBQ : ∀ n, n < (blockChargesOf (c :: cs) flows p).length →
      (blockChargesOf (c :: cs) flows p).getD n 0 ∈ blockChargesOf (c :: cs) flows p := by
    intro n hn
    rw [List.getD_eq_getElem _ 0 hn]
    exact List.getElem_mem hn
  have hnz : (rowBlockLabels (c :: cs) flows p).map
      (fun l => (((uniqueCounts (fuseChargesFlat (List.drop p (c :: cs))
        ((List.drop p flows).map (fun b => !b)))).map Prod.snd).getD
        (((blockChargesOf (c :: cs) flows p).map
          (fun q => (uniqueSorted (fuseChargesFlat (List.drop p (c :: cs))
            ((List.drop p flows).map (fun b => !b)))).indexOf q)).getD l 0) 0)) =
      rowNumNzOf (c :: cs) flows p := by
    rw [rowBlockLabels, List.map_map, rowNumNzOf]
    refine List.map_congr_left (fun q hq => ?_)
    have hqBQ : q ∈ blockChargesOf (c :: cs) flows p :=
      of_decide_eq_true (List.mem_filter.mp hq).2
    have hidx : (blockChargesOf (c :: cs) flows p).indexOf q <
        (blockChargesOf (c :: cs) flows p).length := List.indexOf_lt_length.mpr hqBQ
    simp only [Function.comp]
    rw [getD_map_of_lt _ _ hidx 0 0, getD_indexOf hqBQ 0]
    exact countsGetD _ (hqBQ_col q hqBQ)
  have hD1 : (List.range (blockChargesOf (c :: cs) flows p).length).map
      (fun n => (((uniqueCounts (fuseChargesFlat (List.drop p (c :: cs))
        ((List.drop p flows).map (fun b => !b)))).map Prod.snd).getD
        (((blockChargesOf (c :: cs) flows p).map
          (fun q => (uniqueSorted (fuseChargesFlat (List.drop p (c :: cs))
            ((List.drop p flows).map (fun b => !b)))).indexOf q)).getD n 0) 0)) =
      (List.range (blockChargesOf (c :: cs) flows p).length).map
        (fun n => (colFusedNeg (c :: cs) flows p).count
          ((blockChargesOf (c :: cs) flows p).getD n 0)) := by
    refine List.map_congr_left (fun n hn => ?_)
    have hnK : n < (blockChargesOf (c :: cs) flows p).length := List.mem_range.mp hn
    rw [getD_map_of_lt _ _ hnK 0 0]
    exact countsGetD _ (hqBQ_col _ (hgetBQ n hnK))
  have hD0 : (List.range (blockChargesOf (c :: cs) flows p).length).map
      (fun n => (((uniqueCounts (fuseChargesFlat (List.take p (c :: cs))
        (List.take p flows))).map Prod.snd).getD
        (((blockChargesOf (c :: cs) flows p).map
          (fun q => (uniqueSorted (fuseChargesFlat (List.take p (c :: cs))
            (List.take p flows))).indexOf q)).getD n 0) 0)) =
      (List.range (blockChargesOf (c :: cs) flows p).length).map
        (fun n => (rowFused (c :: cs) flows p).count
          ((blockChargesOf (c :: cs) flows p).getD n 0)) := by
    refine List.map_congr_left (fun n hn => ?_)
    have hnK : n < (blockChargesOf (c :: cs) flows p).length := List.mem_range.mp hn
    rw [getD_map_of_lt _ _ hnK 0 0]
    exact countsGetD _ (hqBQ_row _ (hgetBQ n hnK))
  show BlocksResult.mk _ _ _ = _
  rw [hlabels, hnz, hD1, hD0]
  refine congrArg₂ (fun a d => BlocksResult.mk a
    ⟨blockChargesOf (c :: cs) flows p,
      List.range (blockChargesOf (c :: cs) flows p).length⟩ d) ?_ rfl
  refine List.map_congr_left (fun n hn => ?_)
  have hnK : n < (blockChargesOf (c :: cs) flows p).length := List.mem_range.mp hn
  rw [getD_range_map _ _ n hnK 0]

theorem count_flatMap {α β : Type} [BEq β] (l : List α) (f : α → List β) (b : β) :
    (l.flatMap f).count b = (l.map (fun a => (f a).count b)).sum := by
  induction l with
  | nil => simp
  | cons x xs ih => simp [List.flatMap_cons, List.count_append, ih]

theorem count_range_eq (N a : Nat) : (List.range N).count a = if a < N then 1 else 0 := by
  induction N with
  | zero => simp
  | succ N ih =>
    rw [List.range_succ, List.count_append, ih]
    by_cases h : a < N
    · have h2 : a < N + 1 := by omega
      have h3 : ¬ (N = a) := by omega
      simp [h, h2, h3, List.count_singleton]
    · by_cases h2 : a = N
      · subst h2
        simp [h, List.count_singleton]
      · have h3 : ¬ (a < N + 1) := by omega
        have h4 : ¬ (N = a) := fun hc => h2 hc.symm
        simp [h, h3, h4, List.count_singleton]

theorem count_filter_full {α : Type} [BEq α] [LawfulBEq α] (p : α → Bool) (l : List α)
    (a : α) : (l.filter p).count a = if p a then l.count a else 0 := by
  by_cases h : p a
  · rw [if_pos h, List.count_filter h]
  · rw [if_neg h]
    refine List.count_eq_zero.mpr (fun hm => ?_)
    exact h ((List.mem_filter.mp hm).2)

theorem sum_range_indicator (n₀ c : Nat) :
    ∀ K, ((List.range K).map (fun n => if n₀ = n then c else 0)).sum =
      if n₀ < K then c else 0 := by
  intro K
  induction K with
  | zero => simp
  | succ K ih =>
    rw [List.range_succ, List.map_append, List.sum_append, ih]
    by_cases h : n₀ < K
    · have h2 : n₀ < K + 1 := by omega
      have h3 : ¬ (n₀ = K) := by omega
      simp [h, h2, h3]
    · by_cases h2 : n₀ = K
      · subst h2
        simp [h]
      · have h3 : ¬ (n₀ < K + 1) := by omega
        simp [h, h2, h3]

/-- Counting the rows carrying a given label via the boolean row mask equals the
label's multiplicity. -/
theorem filter_range_length_count (L : List Nat) (b : Nat) :
    ((List.range L.length).filter (fun r => L.getD r 0 = b)).length = L.count b := by
  induction L with
  | nil => simp
  | cons x xs ih =>
    rw [List.length_cons, List.range_succ_eq_map, List.filter_cons]
    by_cases h : x = b
    · rw [if_pos (by simpa [List.getD_cons_zero] using h)]
      rw [List.length_cons, List.filter_map, List.length_map]
      have hc : ((fun r => decide ((x :: xs).getD r 0 = b)) ∘ Nat.succ) =
          (fun r => decide (xs.getD r 0 = b)) := by
        funext r
        simp [Function.comp, List.getD_cons_succ]
      rw [hc, ih, List.count_cons]
      simp [h]
    · rw [if_neg (by simpa [List.getD_cons_zero] using h)]
      rw [List.filter_map, List.length_map]
      have hc : ((fun r => decide ((x :: xs).getD r 0 = b)) ∘ Nat.succ) =
          (fun r => decide (xs.getD r 0 = b)) := by
        funext r
        simp [Function.comp, List.getD_cons_succ]
      rw [hc, ih, List.count_cons]
      have : ¬ (x == b) = true := by simpa using h
      simp [this]

/-- Multiplicity of a label among indexes-of equals the multiplicity of the labelled
value, over a duplicate-free label alphabet. -/
theorem count_indexOf_map (P BQ : List Int) (hP : ∀ q ∈ P, q ∈ BQ) (hnd : BQ.Nodup)
    {b : Nat} (hb : b < BQ.length) :
    (P.map (fun q => BQ.indexOf q)).count b = P.count (BQ.getD b 0) := by
  induction P with
  | nil => simp
  | cons q P' ih =>
    have hq : q ∈ BQ := hP q (List.mem_cons_self q P')
    have ih' := ih (fun q' hq' => hP q' (List.mem_cons_of_mem q hq'))
    simp only [List.map_cons, List.count_cons, ih']
    congr 1
    have hiff : (BQ.indexOf q = b) ↔ (q = BQ.getD b 0) := by
      constructor
      · intro h
        rw [← h, getD_indexOf hq 0]
      · intro h
        rw [h, indexOf_getD_of_nodup hnd hb 0]
    by_cases h : BQ.indexOf q = b
    · rw [if_pos (by simpa using h), if_pos (by simpa using hiff.mp h)]
    · have h2 : ¬ (q = BQ.getD b 0) := fun hc => h (hiff.mpr hc)
      rw [if_neg (by simpa using h), if_neg (by simpa using h2)]

theorem exclScan_length (acc : Nat) (l : List Nat) : (exclScan acc l).length = l.length := by
  induction l generalizing acc with
  | nil => rfl
  | cons x xs ih => simp [exclScan, ih]

theorem exclScan_ge (acc : Nat) (l : List Nat) :
    ∀ i, i < l.length → acc ≤ (exclScan acc l).getD i 0 := by
  induction l generalizing acc with
  | nil =>
    intro i hi
    simp at hi
  | cons x xs ih =>
    intro i hi
    cases i with
    | zero => simp [exclScan]
    | succ i' =>
      have := ih (acc + x) i' (by simpa using hi)
      calc acc ≤ acc + x := Nat.le_add_right acc x
        _ ≤ (exclScan (acc + x) xs).getD i' 0 := this
        _ = (exclScan acc (x :: xs)).getD (i' + 1) 0 := by simp [exclScan]

theorem exclScan_mono (l : List Nat) :
    ∀ acc r r', r < r' → r' < l.length →
      (exclScan acc l).getD r 0 + l.getD r 0 ≤ (exclScan acc l).getD r' 0 := by
  induction l with
  | nil =>
    intro acc r r' hrr hr'
    simp at hr'
  | cons x xs ih =>
    intro acc r r' hrr hr'
    cases r with
    | zero =>
      cases r' with
      | zero => omega
      | succ r'' =>
        have h1 := exclScan_ge (acc + x) xs r'' (by simpa using hr')
        simp only [exclScan, List.getD_cons_zero, List.getD_cons_succ]
        exact h1
    | succ r₀ =>
      cases r' with
      | zero => omega
      | succ r₁ =>
        have := ih (acc + x) r₀ r₁ (by omega) (by simpa using hr')
        simpa [exclScan, List.getD_cons_succ] using this

/-- Joining, over rows in increasing order, the contiguous range of each row's
length starting at its exclusive prefix sum, covers exactly the half-open interval
from the accumulator to the accumulator plus the total. -/
theorem flatMap_range_exclScan (l : List Nat) :
    ∀ acc, (List.range l.length).flatMap (fun r => (List.range (l.getD r 0)).map
      (fun j => (exclScan acc l).getD r 0 + j)) = List.range' acc l.sum := by
  induction l with
  | nil =>
    intro acc
    simp
  | cons x xs ih =>
    intro acc
    rw [List.length_cons, List.range_succ_eq_map, List.flatMap_cons, List.flatMap_map]
    have h0 : (List.range ((x :: xs).getD 0 0)).map
        (fun j => (exclScan acc (x :: xs)).getD 0 0 + j) = List.range' acc x := by
      simp [exclScan, List.range'_eq_map_range]
    have hsucc : (fun r => (List.range ((x :: xs).getD (Nat.succ r) 0)).map
        (fun j => (exclScan acc (x :: xs)).getD (Nat.succ r) 0 + j)) =
        (fun r => (List.range (xs.getD r 0)).map
          (fun j => (exclScan (acc + x) xs).getD r 0 + j)) := by
      funext r
      simp [exclScan, List.getD_cons_succ]
    rw [h0]
    rw [show ((List.range xs.length).flatMap fun r =>
        (List.range ((x :: xs).getD (Nat.succ r) 0)).map
          (fun j => (exclScan acc (x :: xs)).getD (Nat.succ r) 0 + j)) =
        ((List.range xs.length).flatMap fun r =>
          (List.range (xs.getD r 0)).map
            (fun j => (exclScan (acc + x) xs).getD r 0 + j)) from by rw [hsucc]]
    rw [ih (acc + x)]
    have hap := List.range'_append acc x xs.sum 1
    simp only [one_mul, mul_one] at hap
    rw [List.sum_cons, Nat.add_comm x xs.sum]
    exact hap

/-- Concatenating, over all labels, the rows carrying that label is a permutation of
all rows, provided every row's label is in range. -/
theorem flatMap_range_filter_perm (L : List Nat) (K : Nat)
    (h : ∀ r, r < L.length → L.getD r 0 < K) :
    ((List.range K).flatMap (fun n => (List.range L.length).filter
      (fun r => L.getD r 0 = n))).Perm (List.range L.length) := by
  rw [List.perm_iff_count]
  intro a
  rw [count_flatMap]
  have hterm : ∀ n, ((List.range L.length).filter (fun r => L.getD r 0 = n)).count a =
      if a < L.length then (if L.getD a 0 = n then 1 else 0) else 0 := by
    intro n
    rw [count_filter_full, count_range_eq]
    by_cases ha : a < L.length
    · by_cases hl : L.getD a 0 = n
      · simp [ha, hl]
      · simp [ha, hl]
    · by_cases hl : L.getD a 0 = n
      · simp [ha, hl]
      · simp [ha, hl]
  rw [List.map_congr_left (fun n _ => hterm n)]
  rw [count_range_eq]
  by_cases ha : a < L.length
  · simp only [ha, if_true]
    have hsum := sum_range_indicator (L.getD a 0) 1 K
    rw [if_pos (h a ha)] at hsum
    exact hsum
  · simp [ha]

theorem sum_map_const {α : Type} (l : List α) (k : Nat) :
    (l.map (fun _ => k)).sum = l.length * k := by
  induction l with
  | nil => simp
  | cons x xs ih =>
    simp only [List.map_cons, List.sum_cons, ih, List.length_cons]
    ring

/-- Claim C9: for every charges/flows list (of a tensor with at least one leg),
`_find_diagonal_sparse_blocks` with `partition=0` returns exactly one block — the
whole range of charge-conserving positions — with `blockDims == [[1],[numNonzero]]`;
with `partition == numLegs` the two rows of `blockDims` are flipped. -/
theorem claim_C9 (charges : List (List Int)) (flows : List Bool)
    (hne : charges ≠ []) (hlen : flows.length = charges.length) :
    findDiagonalSparseBlocks charges flows 0 =
      some ⟨[List.range (computeNumNonzero charges flows)], ⟨[0], []⟩,
        [[1], [computeNumNonzero charges flows]]⟩ ∧
    findDiagonalSparseBlocks charges flows charges.length =
      some ⟨[List.range (computeNumNonzero charges flows)], ⟨[0], []⟩,
        [[computeNumNonzero charges flows], [1]]⟩ := by
  obtain ⟨c, cs, rfl⟩ : ∃ c cs, charges = c :: cs := by
    cases charges with
    | nil => exact absurd rfl hne
    | cons c cs => exact ⟨c, cs, rfl⟩
  constructor
  · simp only [findDiagonalSparseBlocks]
    rw [if_pos (Or.inl trivial)]
    rw [if_neg (by rw [hlen]; simp)]
  · simp only [findDiagonalSparseBlocks]
    rw [if_pos (Or.inr trivial)]
    rw [if_pos hlen.symm]

/-- Witness for C9 at a concrete input. -/
theorem claim_C9_witness :
    findDiagonalSparseBlocks [[0, 1], [0, 1]] [true, true] 0 =
      some ⟨[List.range (computeNumNonzero [[0, 1], [0, 1]] [true, true])], ⟨[0], []⟩,
        [[1], [computeNumNonzero [[0, 1], [0, 1]] [true, true]]]⟩ ∧
    findDiagonalSparseBlocks [[0, 1], [0, 1]] [true, true] [[0, 1], [0, 1]].length =
      some ⟨[List.range (computeNumNonzero [[0, 1], [0, 1]] [true, true])], ⟨[0], []⟩,
        [[computeNumNonzero [[0, 1], [0, 1]] [true, true]], [1]]⟩ :=
  claim_C9 [[0, 1], [0, 1]] [true, true] (by decide) (by decide)

/-- Claim C2: for every charges/flows list and every interior partition, each block's
reported row-degeneracy times column-degeneracy equals the length of its position
list. -/
theorem claim_C2 (charges : List (List Int)) (flows : List Bool) (p : Nat)
    (hne : charges ≠ []) (hlen : flows.length = charges.length)
    (hp1 : 0 < p) (hp2 : p < charges.length) :
    ∃ res, findDiagonalSparseBlocks charges flows p = some res ∧
      ∀ b, b < res.blockMaps.length →
        (res.blockDims.getD 0 []).getD b 0 * (res.blockDims.getD 1 []).getD b 0 =
          (res.blockMaps.getD b []).length := by
  by_cases hbq : blockChargesOf charges flows p = []
  · refine ⟨_, blocks_empty charges flows p hne hp1 hp2 hbq, ?_⟩
    intro b hb
    simp at hb
  · refine ⟨_, blocks_general charges flows p hne hlen hp1 hp2 hbq, ?_⟩
    intro b hb
    have hbK : b < (blockChargesOf charges flows p).length := by simpa using hb
    have hqBQ : (blockChargesOf charges flows p).getD b 0 ∈ blockChargesOf charges flows p := by
      rw [List.getD_eq_getElem _ 0 hbK]
      exact List.getElem_mem hbK
    have hnd : (blockChargesOf charges flows p).Nodup :=
      (nodup_uniqueSorted _).filter _
    have hP : ∀ x ∈ survivingRows charges flows p, x ∈ blockChargesOf charges flows p :=
      fun x hx => of_decide_eq_true (List.mem_filter.mp hx).2
    show ([(List.range (blockChargesOf charges flows p).length).map _,
      (List.range (blockChargesOf charges flows p).length).map _].getD 0 []).getD b 0 * _ = _
    simp only [List.getD_cons_zero, List.getD_cons_succ]
    rw [getD_range_map _ _ b hbK 0]
    rw [getD_range_map _ _ b hbK 0]
    rw [getD_range_map _ _ b hbK []]
    rw [List.length_flatMap]
    have hlen_each : ∀ r ∈ (List.range (rowBlockLabels charges flows p).length).filter
        (fun r => (rowBlockLabels charges flows p).getD r 0 = b),
        (List.length ∘ (fun r => (List.range ((colFusedNeg charges flows p).count
          ((blockChargesOf charges flows p).getD b 0))).map
          (fun j => (exclScan 0 (rowNumNzOf charges flows p)).getD r 0 + j))) r =
        (colFusedNeg charges flows p).count ((blockChargesOf charges flows p).getD b 0) := by
      intro r _
      simp [Function.comp]
    rw [List.map_congr_left hlen_each, sum_map_const,
      filter_range_length_count (rowBlockLabels charges flows p) b]
    rw [show rowBlockLabels charges flows p = (survivingRows charges flows p).map
      (fun q' => (blockChargesOf charges flows p).indexOf q') from rfl]
    rw [count_indexOf_map _ _ hP hnd hbK]
    rw [show survivingRows charges flows p = (rowFused charges flows p).filter
      (fun q' => q' ∈ blockChargesOf charges flows p) from rfl]
    rw [count_filter_full]
    rw [if_pos (by simpa using hqBQ)]

/-- Witness for C2 at a concrete input. -/
theorem claim_C2_witness :
    ∃ res, findDiagonalSparseBlocks [[0, 1], [0, 1]] [true, false] 1 = some res ∧
      ∀ b, b < res.blockMaps.length →
        (res.blockDims.getD 0 []).getD b 0 * (res.blockDims.getD 1 []).getD b 0 =
          (res.blockMaps.getD b []).length :=
  claim_C2 [[0, 1], [0, 1]] [true, false] 1 (by decide) (by decide) (by decide) (by decide)

/-- Per surviving row, the block-label and column-count lists agree where the label
matches: a row labelled `n` has exactly the column degeneracy of block `n`. -/
theorem rowNumNz_of_label (charges : List (List Int)) (flows : List Bool) (p : Nat)
    {r n : Nat} (hr : r < (rowBlockLabels charges flows p).length)
    (hlab : (rowBlockLabels charges flows p).getD r 0 = n) :
    (rowNumNzOf charges flows p).getD r 0 =
      (colFusedNeg charges flows p).count ((blockChargesOf charges flows p).getD n 0) := by
  have hrP : r < (survivingRows charges flows p).length := by
    simpa [rowBlockLabels] using hr
  have hx : (survivingRows charges flows p).getD r 0 ∈ survivingRows charges flows p := by
    rw [List.getD_eq_getElem _ 0 hrP]
    exact List.getElem_mem hrP
  have hxBQ : (survivingRows charges flows p).getD r 0 ∈ blockChargesOf charges flows p :=
    of_decide_eq_true (List.mem_filter.mp hx).2
  have hlab' : (blockChargesOf charges flows p).indexOf
      ((survivingRows charges flows p).getD r 0) = n := by
    rw [← hlab, rowBlockLabels, getD_map_of_lt _ _ hrP 0 0]
  have hval : (blockChargesOf charges flows p).getD n 0 =
      (survivingRows charges flows p).getD r 0 := by
    rw [← hlab', getD_indexOf hxBQ 0]
  rw [rowNumNzOf, getD_map_of_lt _ _ hrP 0 0, hval]

theorem rowBlockLabels_lt (charges : List (List Int)) (flows : List Bool) (p : Nat) :
    ∀ r, r < (rowBlockLabels charges flows p).length →
      (rowBlockLabels charges flows p).getD r 0 < (blockChargesOf charges flows p).length := by
  intro r hr
  have hrP : r < (survivingRows charges flows p).length := by
    simpa [rowBlockLabels] using hr
  have hx : (survivingRows charges flows p).getD r 0 ∈ survivingRows charges flows p := by
    rw [List.getD_eq_getElem _ 0 hrP]
    exact List.getElem_mem hrP
  have hxBQ : (survivingRows charges flows p).getD r 0 ∈ blockChargesOf charges flows p :=
    of_decide_eq_true (List.mem_filter.mp hx).2
  rw [rowBlockLabels, getD_map_of_lt _ _ hrP 0 0]
  exact List.indexOf_lt_length.mpr hxBQ

/-- Claim C10: for every charges/flows list and interior partition, each individual
block map is a strictly increasing sequence of positions: each row contributes a
contiguous range starting at its cumulative offset, rows are emitted in increasing
row order, so no position repeats and positions ascend within one block. -/
theorem claim_C10 (charges : List (List Int)) (flows : List Bool) (p : Nat)
    (hne : charges ≠ []) (hlen : flows.length = charges.length)
    (hp1 : 0 < p) (hp2 : p < charges.length) :
    ∃ res, findDiagonalSparseBlocks charges flows p = some res ∧
      ∀ m ∈ res.blockMaps, List.Pairwise (· < ·) m := by
  by_cases hbq : blockChargesOf charges flows p = []
  · refine ⟨_, blocks_empty charges flows p hne hp1 hp2 hbq, ?_⟩
    intro m hm
    simp at hm
  · refine ⟨_, blocks_general charges flows p hne hlen hp1 hp2 hbq, ?_⟩
    intro m hm
    obtain ⟨n, hn, rfl⟩ := List.mem_map.mp hm
    rw [List.flatMap_def, List.pairwise_flatten]
    constructor
    · intro l hl
      obtain ⟨r, _, rfl⟩ := List.mem_map.mp hl
      rw [List.pairwise_map]
      exact (List.pairwise_lt_range _).imp (fun h => by omega)
    · rw [List.pairwise_map]
      have hrows : List.Pairwise (· < ·)
          ((List.range (rowBlockLabels charges flows p).length).filter
            (fun r => (rowBlockLabels charges flows p).getD r 0 = n)) :=
        (List.pairwise_lt_range _).filter _
      refine hrows.imp_of_mem ?_
      intro r r' hrm hrm' hrr'
      obtain ⟨hrR, hrL⟩ := List.mem_filter.mp hrm
      obtain ⟨hrR', hrL'⟩ := List.mem_filter.mp hrm'
      have hrN : r < (rowBlockLabels charges flows p).length := List.mem_range.mp hrR
      have hrN' : r' < (rowBlockLabels charges flows p).length := List.mem_range.mp hrR'
      have hNnz : (rowBlockLabels charges flows p).length =
          (rowNumNzOf charges flows p).length := by
        simp [rowBlockLabels, rowNumNzOf]
      have hd : (rowNumNzOf charges flows p).getD r 0 =
          (colFusedNeg charges flows p).count ((blockChargesOf charges flows p).getD n 0) :=
        rowNumNz_of_label charges flows p hrN (of_decide_eq_true hrL)
      have hmono := exclScan_mono (rowNumNzOf charges flows p) 0 r r' hrr'
        (by rw [← hNnz]; exact hrN')
      intro x hx y hy
      obtain ⟨j, hj, rfl⟩ := List.mem_map.mp hx
      obtain ⟨j', hj', rfl⟩ := List.mem_map.mp hy
      have hjd := List.mem_range.mp hj
      rw [← hd] at hjd
      have h1 : (exclScan 0 (rowNumNzOf charges flows p)).getD r 0 + j <
          (exclScan 0 (rowNumNzOf charges flows p)).getD r 0 +
            (rowNumNzOf charges flows p).getD r 0 := by omega
      have h2 : (exclScan 0 (rowNumNzOf charges flows p)).getD r' 0 ≤
          (exclScan 0 (rowNumNzOf charges flows p)).getD r' 0 + j' := by omega
      omega

/-- Witness for C10 at a concrete input. -/
theorem claim_C10_witness :
    ∃ res, findDiagonalSparseBlocks [[0, 1, 0], [0, 1, 1]] [true, false] 1 = some res ∧
      ∀ m ∈ res.blockMaps, List.Pairwise (· < ·) m :=
  claim_C10 [[0, 1, 0], [0, 1, 1]] [true, false] 1 (by decide) (by decide) (by decide)
    (by decide)

/-- Claim C1: for every charges/flows list and interior partition, the block maps
cover every position of `[0, numNonzero)` exactly once — their concatenation is a
permutation of `range numNonzero` — and the lengths of all block maps sum to
`compute_num_nonzero(charges, flows)`. -/
theorem claim_C1 (charges : List (List Int)) (flows : List Bool) (p : Nat)
    (hne : charges ≠ []) (hlen : flows.length = charges.length)
    (hp1 : 0 < p) (hp2 : p < charges.length) :
    ∃ res, findDiagonalSparseBlocks charges flows p = some res ∧
      (res.blockMaps.map List.length).sum = computeNumNonzero charges flows ∧
      res.blockMaps.flatten.Perm (List.range (computeNumNonzero charges flows)) := by
  have hsplit := fuseChargesFlat_split charges flows p hp1 hp2 hlen
  have hN := computeNumNonzero_eq charges flows hlen
  have hcolneg : fuseChargesFlat (charges.drop p) ((flows.drop p).map (fun b => !b)) =
      (fuseChargesFlat (charges.drop p) (flows.drop p)).map (fun q => -q) :=
    fuseChargesFlat_not _ _
  have hsum0 : computeNumNonzero charges flows =
      ((fuseChargesFlat (charges.take p) (flows.take p)).map
        (fun x => (fuseChargesFlat (charges.drop p)
          ((flows.drop p).map (fun b => !b))).count x)).sum := by
    rw [hN, hsplit, count_fuseTwo]
    refine congrArg List.sum (List.map_congr_left (fun x _ => ?_))
    rw [hcolneg, count_map_neg, zero_sub]
  have hBQmem : ∀ x, x ∈ fuseChargesFlat (charges.take p) (flows.take p) →
      x ∈ fuseChargesFlat (charges.drop p) ((flows.drop p).map (fun b => !b)) →
      x ∈ blockChargesOf charges flows p := by
    intro x hx hxn
    have hxn' : x ∈ uniqueSorted (colFusedNeg charges flows p) := mem_uniqueSorted.mpr hxn
    exact List.mem_filter.mpr ⟨mem_uniqueSorted.mpr hx, decide_eq_true hxn'⟩
  by_cases hbq : blockChargesOf charges flows p = []
  · refine ⟨_, blocks_empty charges flows p hne hp1 hp2 hbq, ?_⟩
    have hzero : computeNumNonzero charges flows = 0 := by
      rw [hsum0]
      have hvan : ∀ x ∈ fuseChargesFlat (charges.take p) (flows.take p),
          (fuseChargesFlat (charges.drop p) ((flows.drop p).map (fun b => !b))).count x =
            (fun _ : Int => 0) x := by
        intro x hx
        by_contra hc
        have hmemN : x ∈ fuseChargesFlat (charges.drop p) ((flows.drop p).map (fun b => !b)) :=
          List.count_pos_iff.mp (Nat.pos_of_ne_zero (by simpa using hc))
        have hxB := hBQmem x hx hmemN
        rw [hbq] at hxB
        exact List.not_mem_nil x hxB
      rw [List.map_congr_left hvan, sum_map_const]
      omega
    rw [hzero]
    exact ⟨by simp, by simp⟩
  · refine ⟨_, blocks_general charges flows p hne hlen hp1 hp2 hbq, ?_⟩
    have hnn : computeNumNonzero charges flows = (rowNumNzOf charges flows p).sum := by
      rw [hsum0]
      have hvanish : ∀ x ∈ fuseChargesFlat (charges.take p) (flows.take p),
          (decide (x ∈ blockChargesOf charges flows p)) = false →
          (fuseChargesFlat (charges.drop p) ((flows.drop p).map (fun b => !b))).count x = 0 := by
        intro x hx hnot
        by_contra hc
        have hmemN : x ∈ fuseChargesFlat (charges.drop p) ((flows.drop p).map (fun b => !b)) :=
          List.count_pos_iff.mp (Nat.pos_of_ne_zero hc)
        have hxB := hBQmem x hx hmemN
        rw [decide_eq_true hxB] at hnot
        simp at hnot
      rw [← sum_map_filter_of_zero (fuseChargesFlat (charges.take p) (flows.take p))
        (fun q => q ∈ blockChargesOf charges flows p)
        (fun q => (fuseChargesFlat (charges.drop p)
          ((flows.drop p).map (fun b => !b))).count q) hvanish]
      rfl
    have hLnz : (rowBlockLabels charges flows p).length =
        (rowNumNzOf charges flows p).length := by
      simp [rowBlockLabels, rowNumNzOf]
    have hperm : (((List.range (blockChargesOf charges flows p).length).map (fun n =>
        ((List.range (rowBlockLabels charges flows p).length).filter
          (fun r => (rowBlockLabels charges flows p).getD r 0 = n)).flatMap
          (fun r => (List.range ((colFusedNeg charges flows p).count
              ((blockChargesOf charges flows p).getD n 0))).map
            (fun j => (exclScan 0 (rowNumNzOf charges flows p)).getD r 0 + j)))).flatten).Perm
        (List.range (computeNumNonzero charges flows)) := by
      rw [← List.flatMap_def]
      have hcongr : ∀ n ∈ List.range (blockChargesOf charges flows p).length,
          ((List.range (rowBlockLabels charges flows p).length).filter
            (fun r => (rowBlockLabels charges flows p).getD r 0 = n)).flatMap
            (fun r => (List.range ((colFusedNeg charges flows p).count
                ((blockChargesOf charges flows p).getD n 0))).map
              (fun j => (exclScan 0 (rowNumNzOf charges flows p)).getD r 0 + j)) =
          ((List.range (rowBlockLabels charges flows p).length).filter
            (fun r => (rowBlockLabels charges flows p).getD r 0 = n)).flatMap
            (fun r => (List.range ((rowNumNzOf charges flows p).getD r 0)).map
              (fun j => (exclScan 0 (rowNumNzOf charges flows p)).getD r 0 + j)) := by
        intro n _
        refine List.flatMap_congr (fun r hr => ?_)
        obtain ⟨hrR, hrL⟩ := List.mem_filter.mp hr
        have hrN : r < (rowBlockLabels charges flows p).length := List.mem_range.mp hrR
        rw [rowNumNz_of_label charges flows p hrN (of_decide_eq_true hrL)]
      rw [List.flatMap_congr hcongr, ← List.flatMap_assoc]
      have hperm2 := (flatMap_range_filter_perm (rowBlockLabels charges flows p)
        (blockChargesOf charges flows p).length
        (rowBlockLabels_lt charges flows p)).flatMap_right
        (fun r => (List.range ((rowNumNzOf charges flows p).getD r 0)).map
          (fun j => (exclScan 0 (rowNumNzOf charges flows p)).getD r 0 + j))
      refine hperm2.trans ?_
      rw [hLnz, flatMap_range_exclScan (rowNumNzOf charges flows p) 0, hnn,
        List.range_eq_range']
    refine ⟨?_, hperm⟩
    show (((List.range (blockChargesOf charges flows p).length).map (fun n =>
        ((List.range (rowBlockLabels charges flows p).length).filter
          (fun r => (rowBlockLabels charges flows p).getD r 0 = n)).flatMap
          (fun r => (List.range ((colFusedNeg charges flows p).count
              ((blockChargesOf charges flows p).getD n 0))).map
            (fun j => (exclScan 0 (rowNumNzOf charges flows p)).getD r 0 + j)))).map
        List.length).sum = computeNumNonzero charges flows
    rw [← List.length_flatten, hperm.length_eq, List.length_range]

/-- Witness for C1 at a concrete input. -/
theorem claim_C1_witness :
    ∃ res, findDiagonalSparseBlocks [[0, 1, 0], [0, 1, 1]] [true, false] 1 = some res ∧
      (res.blockMaps.map List.length).sum = computeNumNonzero [[0, 1, 0], [0, 1, 1]]
        [true, false] ∧
      res.blockMaps.flatten.Perm (List.range (computeNumNonzero [[0, 1, 0], [0, 1, 1]]
        [true, false])) :=
  claim_C1 [[0, 1, 0], [0, 1, 1]] [true, false] 1 (by decide) (by decide) (by decide)
    (by decide)

end BlockTensor
